import Mathlib

/-!
Verification development for the pm2es / pm2os log-shipping bridge.

The two Python programs `pm2es.py` and `pm2os.py` read newline-delimited JSON
flow records from stdin, stamp each record with a timestamp taken once at
process start, batch the records into bulk requests, send them to one or more
document-store targets, and at startup create the current day's index
partition and purge partitions older than a retention window.

This file gives a shallow embedding of those programs.  Pure helpers of the
Python standard library (string splitting, decimal/hex rendering, the
Gregorian-calendar conversions used by `datetime`, the `ipaddress` parser and
`hashlib` digests) are modelled by explicit executable Lean functions; the
HTTP side effects are modelled by explicit behaviour parameters (a response
status or a raised transport exception per request), and the module-level
control flow of each script is modelled as a fold over the input stream and
as explicit event traces.
-/

set_option maxHeartbeats 1000000
set_option maxRecDepth 8000

/-- Records are modelled as association lists from field names to string
values; the claims only ever manipulate string-valued fields.  This models
the Python `dict` produced by `json.loads`. -/
abbrev Record := List (String × String)

/-- Lookup of a field, modelling `d[k]` / `k in d` on a Python dict. -/
def getField : Record → String → Option String
  | [], _ => none
  | (k, v) :: r, key => if k = key then some v else getField r key

/-- Membership test on a record, modelling the Python `in` operator. -/
def hasField (r : Record) (key : String) : Bool := (getField r key).isSome

/-- Field update, modelling Python dict assignment `d[k] = v`: overwrite the
existing binding in place, or append a new one. -/
def setField : Record → String → String → Record
  | [], key, v => [(key, v)]
  | (k, w) :: r, key, v =>
    if k = key then (key, v) :: r else (k, w) :: setField r key v

/-- Splitting a character list on a separator character, modelling the Python
`str.split(sep)` used via `name.split('-')` and the dot/colon splits of the
`ipaddress` grammar.  Always returns at least one (possibly empty) group. -/
def splitOnChar (sep : Char) : List Char → List (List Char)
  | [] => [[]]
  | x :: xs =>
    match splitOnChar sep xs with
    | [] => [[]]
    | g :: gs => if x = sep then [] :: g :: gs else (x :: g) :: gs

/-- Decimal digit character for a value below ten. -/
def decDigit (n : Nat) : Char := Char.ofNat (48 + n)

/-- Numeric value of a decimal digit string, most significant digit first. -/
def decVal (cs : List Char) : Nat :=
  cs.foldl (fun a c => a * 10 + (c.toNat - 48)) 0

/-- Zero-padded fixed-width decimal rendering, modelling the zero-padded
`%Y`, `%m`, `%d`, `%H`, `%M`, `%S` directives of `strftime`. -/
def padChars : Nat → Nat → List Char
  | 0, _ => []
  | w + 1, n => decDigit (n / 10 ^ w) :: padChars w (n % 10 ^ w)

/-- Decimal rendering of a small natural number, modelling Python `str(n)`
for the byte range `0 ≤ n < 1000` (the program only renders digest bytes,
which are below 256). -/
def decChars (n : Nat) : List Char :=
  if n < 10 then [decDigit n]
  else if n < 100 then [decDigit (n / 10), decDigit (n % 10)]
  else [decDigit (n / 100), decDigit (n / 10 % 10), decDigit (n % 10)]

/-- Lowercase hexadecimal digit character for a value below sixteen. -/
def hexDigit (n : Nat) : Char :=
  if n < 10 then decDigit n else Char.ofNat (87 + n)

/-- Four-character lowercase hexadecimal rendering, modelling the Python
format specifier `04x` for values up to `0xffff`. -/
def hex4Chars (n : Nat) : List Char :=
  [hexDigit (n / 4096 % 16), hexDigit (n / 256 % 16),
   hexDigit (n / 16 % 16), hexDigit (n % 16)]

/-- Hexadecimal digit test used by the IPv6 grammar. -/
def isHexChar (c : Char) : Bool :=
  c.isDigit || (('a' ≤ c) && (c ≤ 'f')) || (('A' ≤ c) && (c ≤ 'F'))

/-- Modelled from the Python standard library: one dotted-decimal octet of
the `ipaddress` IPv4 grammar — a nonempty all-digit group of at most three
characters, no leading zero, value at most 255. -/
def octetOK (cs : List Char) : Bool :=
  (!cs.isEmpty) && decide (cs.length ≤ 3) && cs.all Char.isDigit &&
    (decide (cs.length = 1) || decide (cs.headD (' ') ≠ '0')) &&
    decide (decVal cs ≤ 255)

/-- Modelled from the Python standard library: the string form accepted by
`ipaddress.IPv4Address` — exactly four dot-separated octets. -/
def isIPv4String (s : String) : Bool :=
  let gs := splitOnChar ('.') s.data
  decide (gs.length = 4) && gs.all octetOK

/-- Modelled from the Python standard library: one hextet of the IPv6
grammar — a nonempty hex-digit group of at most four characters. -/
def hexGroupOK (cs : List Char) : Bool :=
  (!cs.isEmpty) && decide (cs.length ≤ 4) && cs.all isHexChar

/-- Modelled from the Python standard library: the string form accepted by
`ipaddress.IPv6Address`, restricted to the uncompressed grammar fragment of
eight colon-separated hextets (the `::`-compressed, IPv4-embedded and zoned
forms the library also accepts are not modelled; no claim depends on them,
and the pseudonymizer's output is always in the uncompressed form). -/
def isIPv6String (s : String) : Bool :=
  let gs := splitOnChar (':') s.data
  decide (gs.length = 8) && gs.all hexGroupOK

/-- Address family distinguished by `ipaddress.ip_address`. -/
inductive IPFamily
  | v4
  | v6
deriving DecidableEq, Repr

/-- Modelled from the Python standard library: `ipaddress.ip_address(s)`
tries the IPv4 form first, then the IPv6 form, and raises `ValueError`
(here: `none`) if neither matches. -/
def ip_address (s : String) : Option IPFamily :=
  if isIPv4String s then some IPFamily.v4
  else if isIPv6String s then some IPFamily.v6
  else none

/-- Translated from `pm2os.py` (`pseudonymize_ipv4`): hash `salt + ip` and
render the first 4 digest bytes as a dotted-decimal IPv4 address
(`".".join(str(byte) for byte in hash_bytes[:4])`).  The SHA-256 digest
`hashlib.sha256((salt + ip).encode()).digest()` is external library code and
is modelled by the byte-sequence-valued parameter `digest`; theorems assume
only that it returns 32 bytes. -/
def pseudonymize_ipv4 (digest : String → List Nat) (ip salt : String) : String :=
  String.mk (List.intercalate ['.'] (((digest (salt ++ ip)).take 4).map decChars))

/-- Translated from `pm2os.py` (`pseudonymize_ipv6`): hash `salt + ip` and
render eight 16-bit groups `(hash_bytes[i] << 8 | hash_bytes[i+1]) & 0xFFFF`
for even `i < 16`, each formatted `04x`, joined with colons.  The digest is
modelled as in `pseudonymize_ipv4`; out-of-range indexing (impossible for a
32-byte digest) is modelled by `getD _ 0`. -/
def pseudonymize_ipv6 (digest : String → List Nat) (ip salt : String) : String :=
  let hb := digest (salt ++ ip)
  String.mk (List.intercalate [':']
    (((List.range 8).map
      (fun i => hex4Chars (((hb.getD (2 * i) 0) <<< 8 ||| hb.getD (2 * i + 1) 0) &&& 65535)))))

/-- Translated from `pm2os.py` (`pseudonymize_ip`): detect the address
family with `ipaddress.ip_address`; dispatch to the family-specific
pseudonymizer; on `ValueError` return the sentinel string
`"Invalid IP: " + ip` instead of raising. -/
def pseudonymize_ip (digest : String → List Nat) (ip salt : String) : String :=
  match ip_address ip with
  | some IPFamily.v4 => pseudonymize_ipv4 digest ip salt
  | some IPFamily.v6 => pseudonymize_ipv6 digest ip salt
  | none => "Invalid IP: " ++ ip

/-- Leap-year test of the Gregorian calendar, modelling the `datetime`
library's calendar. -/
def isLeap (y : Nat) : Bool :=
  (decide (y % 4 = 0) && decide (y % 100 ≠ 0)) || decide (y % 400 = 0)

/-- Number of days in a month of the Gregorian calendar. -/
def daysInMonth (y m : Nat) : Nat :=
  if m = 2 then (if isLeap y then 29 else 28)
  else if m = 4 ∨ m = 6 ∨ m = 9 ∨ m = 11 then 30
  else 31

/-- Validity of a calendar date in the range representable by Python's
`datetime` (years 1 to 9999). -/
def validDate (y m d : Nat) : Prop :=
  1 ≤ y ∧ y ≤ 9999 ∧ 1 ≤ m ∧ m ≤ 12 ∧ 1 ≤ d ∧ d ≤ daysInMonth y m

instance (y m d : Nat) : Decidable (validDate y m d) := by
  unfold validDate; infer_instance

/-- Modelled from the `datetime` library: days elapsed since 0000-03-01 of
the proleptic Gregorian calendar for a civil date (the standard
days-from-civil conversion); used to compare datetimes as instants. -/
def daysFromCivil (y m d : Nat) : Nat :=
  let y' := if m ≤ 2 then y - 1 else y
  let era := y' / 400
  let yoe := y' % 400
  let mp := (m + 9) % 12
  let doy := (153 * mp + 2) / 5 + (d - 1)
  let doe := yoe * 365 + yoe / 4 - yoe / 100 + doy
  era * 146097 + doe

/-- A UTC instant at second precision, modelling the value of
`datetime.utcnow()`. -/
structure DateTime where
  year : Nat
  month : Nat
  day : Nat
  hour : Nat
  minute : Nat
  second : Nat
deriving DecidableEq, Repr

/-- Validity of a `DateTime`. -/
def DateTime.valid (t : DateTime) : Prop :=
  validDate t.year t.month t.day ∧ t.hour < 24 ∧ t.minute < 60 ∧ t.second < 60

instance (t : DateTime) : Decidable t.valid := by
  unfold DateTime.valid; infer_instance

/-- Seconds-since-epoch view of an instant, used to model comparison of
`datetime` values and subtraction of a `timedelta`. -/
def DateTime.toSec (t : DateTime) : Int :=
  86400 * (daysFromCivil t.year t.month t.day : Int) +
    3600 * (t.hour : Int) + 60 * (t.minute : Int) + (t.second : Int)

/-- Translated from both scripts: the partition name
`f"sflow-{now.strftime('%Y.%m.%d')}"`, with `strftime`'s zero-padded
directives modelled by `padChars`. -/
def INDEX_NAME (t : DateTime) : String :=
  String.mk (("sflow-").data ++ padChars 4 t.year ++ ['.'] ++
    padChars 2 t.month ++ ['.'] ++ padChars 2 t.day)

/-- Translated from both scripts: the run-wide timestamp
`now.strftime('%Y-%m-%dT%H:%M:%S') + 'Z'`, computed once at startup. -/
def TIMESTAMP (t : DateTime) : String :=
  String.mk (padChars 4 t.year ++ ['-'] ++ padChars 2 t.month ++ ['-'] ++
    padChars 2 t.day ++ ['T'] ++ padChars 2 t.hour ++ [':'] ++
    padChars 2 t.minute ++ [':'] ++ padChars 2 t.second ++ ['Z'])

/-- Configured bulk threshold of both scripts; the source comment reads
"How many lines to send to ES in bulk", and the threshold is applied to the
buffer of bulk-protocol lines, not to records. -/
def BULK_SIZE : Nat := 1000

/-- Configured retention window of both scripts, in days. -/
def RETENTION_DAYS : Nat := 9

/-- Modelled from the Python standard library:
`datetime.strptime(s, '%Y.%m.%d')`.  `%Y` matches exactly four digits, `%m`
one or two digits with value 1..12, `%d` one or two digits with value 1..31;
the whole string must be consumed, and the resulting date must be a valid
calendar date with year at least `datetime.MINYEAR = 1`.  Failure
(`ValueError`) is modelled by `none`. -/
def strptimeYMD (s : String) : Option (Nat × Nat × Nat) :=
  match splitOnChar ('.') s.data with
  | [ys, ms, ds] =>
    if ys.length = 4 ∧ ys.all Char.isDigit ∧
        (ms.length = 1 ∨ ms.length = 2) ∧ ms.all Char.isDigit ∧
        (ds.length = 1 ∨ ds.length = 2) ∧ ds.all Char.isDigit then
      let y := decVal ys
      let m := decVal ms
      let d := decVal ds
      if 1 ≤ y ∧ 1 ≤ m ∧ m ≤ 12 ∧ 1 ≤ d ∧ d ≤ daysInMonth y m then
        some (y, m, d)
      else none
    else none
  | _ => none

/-- Calendar successor of a date, modelling the advance of the current UTC
day by one whole day (24 hours on the instant side). -/
def nextDate : Nat × Nat × Nat → Nat × Nat × Nat
  | (y, m, d) =>
    if d < daysInMonth y m then (y, m, d + 1)
    else if m < 12 then (y, m + 1, 1)
    else (y + 1, 1, 1)

/-- Strict lexicographic order on calendar dates (year, then month, then
day), which is the calendar's chronological order on valid dates. -/
def dateLt (a b : Nat × Nat × Nat) : Prop :=
  a.1 < b.1 ∨ (a.1 = b.1 ∧ (a.2.1 < b.2.1 ∨ (a.2.1 = b.2.1 ∧ a.2.2 < b.2.2)))

instance (a b : Nat × Nat × Nat) : Decidable (dateLt a b) := by
  unfold dateLt; infer_instance

/-- Well-formedness of a partition name, following the spec's words: the
exact shape `sflow-YYYY.MM.DD` with zero-padded numeric fields. -/
def wellFormedName (s : String) : Bool :=
  match s.data with
  | 's' :: 'f' :: 'l' :: 'o' :: 'w' :: '-' ::
      c1 :: c2 :: c3 :: c4 :: '.' :: c5 :: c6 :: '.' :: c7 :: c8 :: [] =>
    [c1, c2, c3, c4, c5, c6, c7, c8].all Char.isDigit
  | _ => false

/-- One configured document-store endpoint.  `pm2os.py` configures a list
`TARGETS` of host/port/credential dictionaries; `pm2es.py` configures a
single host and port. -/
structure Target where
  host : String
  port : Nat
deriving DecidableEq, Repr

/-- Translated from `pm2os.py`: the two-element `TARGETS` list (hosts are
placeholder values in the source). -/
def TARGETS : List Target := [⟨"REPLACE_ME", 9200⟩, ⟨"REPLACE_ME", 9200⟩]

/-- Translated from `pm2es.py`: the single Elasticsearch endpoint. -/
def esTarget : Target := ⟨"<REPLACE_ME>", 9200⟩

/-- Behaviour of one HTTP request issued by `requests`: either a response
with a status code, or a raised transport exception
(`requests.exceptions.RequestException`). -/
inductive ReqRes
  | status (code : Nat)
  | raise
deriving DecidableEq, Repr

/-- How a retention sweep over one listing ends.
`finished`: the loop ran over every listed row.
`caught`: an exception reached the sweep's outer `except
requests.exceptions.RequestException` handler, which logs and returns —
the remaining rows are skipped but the process survives.
`crashed`: an exception no handler catches (`IndexError` from a short row,
or the `NameError` in `pm2os.py`) propagates out of the function and
terminates the process. -/
inductive SweepEnd
  | finished
  | caught
  | crashed
deriving DecidableEq, Repr

/-- Observable outcome of one retention sweep. -/
structure PurgeOut where
  attempted : List String
  deleted : List String
  failedDel : List String
  parseErrs : List String
  remaining : List (List String)
  outcome : SweepEnd
deriving DecidableEq, Repr

/-- The `startswith('sflow-')` guard of both sweeps, modelled at character
level. -/
def hasSflowPrefix (name : String) : Bool :=
  ("sflow-").data.isPrefixOf name.data

/-- The date suffix `index_name.split('-')[1]` extracted inside both sweeps
(the index 1 exists whenever the `sflow-` prefix guard held). -/
def nameDateSuffix (name : String) : String :=
  String.mk ((splitOnChar ('-') name.data).getD 1 [])

/-- The declarative deletion predicate, following the spec's words: a listed
name is selected for deletion iff it has the naming scheme's prefix, its
date suffix parses, and the parsed date (as a midnight instant) is strictly
older than `now − retention_days`.  Used to compare the sweep loops against
the spec. -/
def shouldDelete (nowSec : Int) (retention : Nat) (name : String) : Bool :=
  hasSflowPrefix name &&
    match strptimeYMD (nameDateSuffix name) with
    | some (y, m, d) =>
        decide ((86400 * (daysFromCivil y m d : Int)) < nowSec - (retention : Int) * 86400)
    | none => false

/-- Translated from `pm2es.py` (`purge_old_indices`), lines 53–75.  The
listing response is modelled as rows of whitespace-split columns; `db` gives
the behaviour of each `requests.delete`.  Per row: read column 2 (a short
row raises an uncaught `IndexError`, modelled as `crashed`); if the name has
the `sflow-` prefix, parse its date suffix (failure is caught by the inner
`except ValueError` and reported); if the date is strictly older than
`now − RETENTION_DAYS`, issue the delete — status 200 is reported as
deleted, any other status as a failure, and a raised transport exception
propagates to the sweep's outer handler, which logs and returns with the
remaining rows unprocessed (`caught`). -/
def Pm2es.purge_old_indices (nowSec : Int) (retention : Nat)
    (db : String → ReqRes) : List (List String) → PurgeOut
  | [] => ⟨[], [], [], [], [], SweepEnd.finished⟩
  | row :: rest =>
    match row.get? 2 with
    | none => ⟨[], [], [], [], row :: rest, SweepEnd.crashed⟩
    | some name =>
      if hasSflowPrefix name then
        match strptimeYMD (nameDateSuffix name) with
        | some (y, m, d) =>
          if (86400 * (daysFromCivil y m d : Int)) < nowSec - (retention : Int) * 86400 then
            match db name with
            | ReqRes.raise => ⟨[name], [], [], [], rest, SweepEnd.caught⟩
            | ReqRes.status c =>
              let o := Pm2es.purge_old_indices nowSec retention db rest
              if c = 200 then
                { o with attempted := name :: o.attempted, deleted := name :: o.deleted }
              else
                { o with attempted := name :: o.attempted, failedDel := name :: o.failedDel }
          else Pm2es.purge_old_indices nowSec retention db rest
        | none =>
          let o := Pm2es.purge_old_indices nowSec retention db rest
          { o with parseErrs := name :: o.parseErrs }
      else Pm2es.purge_old_indices nowSec retention db rest

/-- Translated from `pm2os.py` (`purge_old_indices`), lines 88–110.  Same
loop as the `pm2es.py` sweep, except that when a row qualifies for deletion
the construction of `delete_url` evaluates the names `OPENSEARCH_HOST` and
`OPENSEARCH_PORT`, which are defined nowhere in the module: Python raises
`NameError` before any delete request is issued, and neither the inner
`except ValueError` nor the outer `except requests.exceptions.RequestException`
catches it, so it propagates out of the function and terminates the process
(`crashed`). -/
def Pm2os.purge_old_indices (nowSec : Int) (retention : Nat) :
    List (List String) → PurgeOut
  | [] => ⟨[], [], [], [], [], SweepEnd.finished⟩
  | row :: rest =>
    match row.get? 2 with
    | none => ⟨[], [], [], [], row :: rest, SweepEnd.crashed⟩
    | some name =>
      if hasSflowPrefix name then
        match strptimeYMD (nameDateSuffix name) with
        | some (y, m, d) =>
          if (86400 * (daysFromCivil y m d : Int)) < nowSec - (retention : Int) * 86400 then
            ⟨[], [], [], [], rest, SweepEnd.crashed⟩
          else Pm2os.purge_old_indices nowSec retention rest
        | none =>
          let o := Pm2os.purge_old_indices nowSec retention rest
          { o with parseErrs := name :: o.parseErrs }
      else Pm2os.purge_old_indices nowSec retention rest

/-- Module-level actions of the scripts, in execution order. -/
inductive Event
  | ensure (t : Target)
  | purge (t : Target)
  | bulkSend (t : Target)
deriving DecidableEq, Repr

/-- Translated from the top level of `pm2os.py`: lines 75–76 run
`create_index_if_needed` for every target, then lines 113–114 run
`purge_old_indices` for every target; only then does the stdin loop start. -/
def startupTrace_os (targets : List Target) : List Event :=
  targets.map Event.ensure ++ targets.map Event.purge

/-- Translated from the top level of `pm2es.py`: lines 43–50 run the
existence-check/create block, then line 78 runs `purge_old_indices`. -/
def startupTrace_es : List Event := [Event.ensure esTarget, Event.purge esTarget]

/-- Full event trace of one `pm2os.py` invocation whose stdin loop performs
`flushCount` flushes: the startup actions followed by one bulk send per
target per flush. -/
def runTrace_os (targets : List Target) (flushCount : Nat) : List Event :=
  startupTrace_os targets ++
    ((List.range flushCount).map (fun _ => targets.map Event.bulkSend)).flatten

/-- One line of the bulk wire payload built by the stdin loop: either the
action header `json.dumps({"index": {}})` or a serialized document.  The
loop appends both to the same `lines` buffer, so the buffer length counts
lines, not records. -/
inductive BulkLine
  | header
  | doc (r : Record)
deriving DecidableEq, Repr

/-- Configuration surface of the stdin loop: the bulk threshold
(`BULK_SIZE`), the pseudonymization flag (`PSEUDONYMIZE`), the salt passed
to the pseudonymizer (the source call sites use the parameter default
`"default_salt"`), and the run-wide timestamp string (`TIMESTAMP`). -/
structure Config where
  bulkSize : Nat
  pseudo : Bool
  salt : String
  timestamp : String

/-- State of the stdin loop: the `lines` buffer, the batches handed to the
bulk sender so far (in order), and the number of JSON decoding errors
reported so far. -/
structure LoopState where
  lines : List BulkLine
  flushes : List (List BulkLine)
  errors : Nat
deriving DecidableEq, Repr

/-- Translated from the per-record body of the `pm2os.py` stdin loop
(lines 150–155): stamp `@timestamp`, then, if pseudonymization is enabled,
overwrite `ip_dst` and then `ip_src` (in that source order) when present.
The `pm2es.py` loop is the instance with the flag off. -/
def processRecord (cfg : Config) (digest : String → List Nat) (r : Record) : Record :=
  let r1 := setField r ("@timestamp") cfg.timestamp
  let r2 :=
    if cfg.pseudo && hasField r1 ("ip_dst") then
      setField r1 ("ip_dst") (pseudonymize_ip digest ((getField r1 ("ip_dst")).getD ("")) cfg.salt)
    else r1
  if cfg.pseudo && hasField r2 ("ip_src") then
    setField r2 ("ip_src") (pseudonymize_ip digest ((getField r2 ("ip_src")).getD ("")) cfg.salt)
  else r2

/-- Translated from one iteration of the stdin loop of both scripts:
`json.loads(line.strip())` (strip and parse are both library functions;
their composition is modelled by the parameter `loads` applied to the raw
line; failure increments the error count and continues), process the
record, append the header line and the document line to the buffer, and
flush the whole buffer when its length reaches the bulk threshold. -/
def stepLine (cfg : Config) (digest : String → List Nat)
    (loads : String → Option Record) (st : LoopState) (line : String) : LoopState :=
  match loads line with
  | none => { st with errors := st.errors + 1 }
  | some jd =>
    let jd' := processRecord cfg digest jd
    let buf := st.lines ++ [BulkLine.header, BulkLine.doc jd']
    if cfg.bulkSize ≤ buf.length then
      { lines := [], flushes := st.flushes ++ [buf], errors := st.errors }
    else
      { st with lines := buf }

/-- Translated from the stdin loop plus the trailing "Send remaining lines"
block of both scripts: fold the per-line step over the stream, then flush
whatever is buffered at end of stream.  The function is total: reaching its
result models the process reaching normal termination. -/
def runLoop (cfg : Config) (digest : String → List Nat)
    (loads : String → Option Record) (stream : List String) : LoopState :=
  let st := stream.foldl (stepLine cfg digest loads) ⟨[], [], 0⟩
  if st.lines.isEmpty then st
  else { st with lines := [], flushes := st.flushes ++ [st.lines] }

/-- Translated from `pm2os.py` (`send_to_opensearch`), lines 79–85: POST the
payload to one target's bulk endpoint; a non-200 status is reported by a
printed message and the function returns; a raised transport exception is
caught nowhere in the function (`none`). -/
def send_to_opensearch (behave : Target → ReqRes) (t : Target) : Option (List String) :=
  match behave t with
  | ReqRes.raise => none
  | ReqRes.status c =>
    some (if c ≠ 200 then [("Error sending to Opensearch (") ++ t.host ++ (")")] else [])

/-- Translated from the flush fan-out of `pm2os.py`
(`for target in TARGETS: send_to_opensearch(lines, target)`): attempt the
targets in order with the identical payload; if a send raises, the exception
propagates out of the loop (and, in the script, out of the process), so the
remaining targets are never attempted.  Returns the list of attempted calls
(target paired with the payload it was sent) and whether the loop aborted. -/
def fanout (behave : Target → ReqRes) (data : List BulkLine) :
    List Target → List (Target × List BulkLine) × Bool
  | [] => ([], false)
  | t :: ts =>
    match send_to_opensearch behave t with
    | none => ([(t, data)], true)
    | some _ =>
      let r := fanout behave data ts
      ((t, data) :: r.1, r.2)

/-- The bulk requests a run issues: for each flush, in order, one request
per configured target carrying that flush's payload (the no-exception
schedule of the fan-out loop). -/
def pipelineCalls (targets : List Target) (flushes : List (List BulkLine)) :
    List (Target × List BulkLine) :=
  (flushes.map (fun f => targets.map (fun t => (t, f)))).flatten

/-- Documents carried by a batch (the payload with the action headers
stripped). -/
def docsOf (f : List BulkLine) : List Record :=
  f.filterMap (fun l => match l with | BulkLine.header => none | BulkLine.doc r => some r)

/-- Bulk payload for a list of records: one action header before each
serialized document. -/
def linesOf (c : List Record) : List BulkLine :=
  (c.map (fun r => [BulkLine.header, BulkLine.doc r])).flatten

/-- Record-level restatement of the stdin loop, used as an intermediate
between the line-buffer fold and the declarative chunk description:
`R` is the record capacity of one batch. -/
def recLoop (cfg : Config) (digest : String → List Nat)
    (loads : String → Option Record) (R : Nat) :
    List String → List Record → List (List Record) → Nat →
      List Record × List (List Record) × Nat
  | [], p, F, e => (p, F, e)
  | l :: ls, p, F, e =>
    match loads l with
    | none => recLoop cfg digest loads R ls p F (e + 1)
    | some jd =>
      let p' := p ++ [processRecord cfg digest jd]
      if R ≤ p'.length then recLoop cfg digest loads R ls [] (F ++ [p']) e
      else recLoop cfg digest loads R ls p' F e

/-- Greedy split of a list into maximal full chunks of size `R` plus a
remainder shorter than `R` (for `1 ≤ R`). -/
def splitChunks (R : Nat) (l : List α) : List (List α) × List α :=
  if _h : 1 ≤ R ∧ R ≤ l.length then
    let r := splitChunks R (l.drop R)
    (l.take R :: r.1, r.2)
  else ([], l)
termination_by l.length
decreasing_by
  simp only [List.length_drop]
  omega

/-- Batches produced for a record sequence: every full chunk, plus the final
partial chunk when nonempty (the end-of-stream flush). -/
def chunksWithRem (R : Nat) (l : List α) : List (List α) :=
  (splitChunks R l).1 ++ (if (splitChunks R l).2.isEmpty then [] else [(splitChunks R l).2])

/-- Processed records of a stream, in order: the records of the lines that
parse, each stamped and (conditionally) pseudonymized. -/
def procs (cfg : Config) (digest : String → List Nat)
    (loads : String → Option Record) (stream : List String) : List Record :=
  stream.filterMap (fun l => (loads l).map (processRecord cfg digest))

/-- Number of JSON decoding errors a stream produces. -/
def nErr (loads : String → Option Record) (stream : List String) : Nat :=
  (stream.filter (fun l => (loads l).isNone)).length



/-! Helper lemmas: batching machinery. -/

theorem linesOf_append (a b : List Record) : linesOf (a ++ b) = linesOf a ++ linesOf b := by
  simp [linesOf]

theorem linesOf_length (c : List Record) : (linesOf c).length = 2 * c.length := by
  induction c with
  | nil => simp [linesOf]
  | cons x xs ih =>
    simp [linesOf] at ih ⊢
    omega

theorem linesOf_eq_nil_iff (c : List Record) : linesOf c = [] ↔ c = [] := by
  cases c <;> simp [linesOf]

theorem docsOf_linesOf (c : List Record) : docsOf (linesOf c) = c := by
  induction c with
  | nil => simp [linesOf, docsOf]
  | cons x xs ih => simp [linesOf, docsOf] at ih ⊢; exact ih

theorem bulk_cond (B k : Nat) : B ≤ 2 * k ↔ (B + 1) / 2 ≤ k := by omega

theorem foldl_stepLine (cfg : Config) (dg : String → List Nat)
    (lds : String → Option Record) :
    ∀ (stream : List String) (p : List Record) (F : List (List Record)) (e : Nat),
      stream.foldl (stepLine cfg dg lds) ⟨linesOf p, F.map linesOf, e⟩ =
        ⟨linesOf (recLoop cfg dg lds ((cfg.bulkSize + 1) / 2) stream p F e).1,
         (recLoop cfg dg lds ((cfg.bulkSize + 1) / 2) stream p F e).2.1.map linesOf,
         (recLoop cfg dg lds ((cfg.bulkSize + 1) / 2) stream p F e).2.2⟩ := by
  intro stream
  induction stream with
  | nil => intro p F e; rfl
  | cons l ls ih =>
    intro p F e
    simp only [List.foldl_cons, recLoop]
    cases h : lds l with
    | none =>
      simp only [stepLine, h]
      exact ih p F (e + 1)
    | some jd =>
      simp only [stepLine, h]
      have hbuf : linesOf p ++ [BulkLine.header, BulkLine.doc (processRecord cfg dg jd)] =
          linesOf (p ++ [processRecord cfg dg jd]) := by
        rw [linesOf_append]; rfl
      have hcond : (cfg.bulkSize ≤ (linesOf p ++ [BulkLine.header, BulkLine.doc (processRecord cfg dg jd)]).length) ↔
          ((cfg.bulkSize + 1) / 2 ≤ (p ++ [processRecord cfg dg jd]).length) := by
        rw [hbuf, linesOf_length]
        exact bulk_cond _ _
      by_cases hc : (cfg.bulkSize + 1) / 2 ≤ (p ++ [processRecord cfg dg jd]).length
      · rw [if_pos (hcond.mpr hc), if_pos hc, hbuf]
        have : (F.map linesOf) ++ [linesOf (p ++ [processRecord cfg dg jd])] =
            (F ++ [p ++ [processRecord cfg dg jd]]).map linesOf := by simp
        rw [this]
        have h0 : ([] : List BulkLine) = linesOf [] := rfl
        rw [h0]
        exact ih [] (F ++ [p ++ [processRecord cfg dg jd]]) e
      · rw [if_neg (fun hx => hc (hcond.mp hx)), if_neg hc, hbuf]
        exact ih (p ++ [processRecord cfg dg jd]) F e

theorem splitChunks_of_lt {α : Type} (R : Nat) (l : List α) (h : l.length < R) :
    splitChunks R l = ([], l) := by
  rw [splitChunks]
  rw [dif_neg]
  omega

theorem splitChunks_cons_chunk {α : Type} (R : Nat) (c l : List α)
    (hR : 1 ≤ R) (hc : c.length = R) :
    splitChunks R (c ++ l) = (c :: (splitChunks R l).1, (splitChunks R l).2) := by
  rw [splitChunks]
  rw [dif_pos (by simp [List.length_append]; omega)]
  have ht : (c ++ l).take R = c := by
    rw [← hc]; exact List.take_left c l
  have hd : (c ++ l).drop R = l := by
    rw [← hc]; exact List.drop_left c l
  rw [ht, hd]

theorem procs_cons_none (cfg : Config) (dg : String → List Nat)
    (lds : String → Option Record) (l : String) (ls : List String)
    (h : lds l = none) :
    procs cfg dg lds (l :: ls) = procs cfg dg lds ls := by
  simp [procs, List.filterMap_cons, h]

theorem procs_cons_some (cfg : Config) (dg : String → List Nat)
    (lds : String → Option Record) (l : String) (ls : List String) (jd : Record)
    (h : lds l = some jd) :
    procs cfg dg lds (l :: ls) = processRecord cfg dg jd :: procs cfg dg lds ls := by
  simp [procs, List.filterMap_cons, h]

theorem nErr_cons_none (lds : String → Option Record) (l : String) (ls : List String)
    (h : lds l = none) : nErr lds (l :: ls) = nErr lds ls + 1 := by
  simp [nErr, List.filter_cons, h]

theorem nErr_cons_some (lds : String → Option Record) (l : String) (ls : List String)
    (jd : Record) (h : lds l = some jd) : nErr lds (l :: ls) = nErr lds ls := by
  simp [nErr, List.filter_cons, h]

theorem recLoop_eq_splitChunks (cfg : Config) (dg : String → List Nat)
    (lds : String → Option Record) (R : Nat) (hR : 1 ≤ R) :
    ∀ (stream : List String) (p : List Record) (F : List (List Record)) (e : Nat),
      p.length < R →
      recLoop cfg dg lds R stream p F e =
        ((splitChunks R (p ++ procs cfg dg lds stream)).2,
         F ++ (splitChunks R (p ++ procs cfg dg lds stream)).1,
         e + nErr lds stream) := by
  intro stream
  induction stream with
  | nil =>
    intro p F e hp
    simp only [recLoop, procs, List.filterMap_nil, List.append_nil]
    rw [splitChunks_of_lt R p hp]
    simp [nErr]
  | cons l ls ih =>
    intro p F e hp
    cases h : lds l with
    | none =>
      simp only [recLoop, h]
      rw [procs_cons_none cfg dg lds l ls h, nErr_cons_none lds l ls h]
      rw [ih p F (e + 1) hp]
      have he : e + 1 + nErr lds ls = e + (nErr lds ls + 1) := by omega
      rw [he]
    | some jd =>
      simp only [recLoop, h]
      rw [procs_cons_some cfg dg lds l ls jd h, nErr_cons_some lds l ls jd h]
      have hassoc : p ++ processRecord cfg dg jd :: procs cfg dg lds ls =
          (p ++ [processRecord cfg dg jd]) ++ procs cfg dg lds ls := by simp
      rw [hassoc]
      by_cases hc : R ≤ (p ++ [processRecord cfg dg jd]).length
      · rw [if_pos hc]
        have hlen : (p ++ [processRecord cfg dg jd]).length = R := by
          simp at hc ⊢; omega
        rw [splitChunks_cons_chunk R _ _ hR hlen]
        rw [ih [] (F ++ [p ++ [processRecord cfg dg jd]]) e
          (by simp only [List.length_nil]; omega)]
        simp
      · rw [if_neg hc]
        have hlt : (p ++ [processRecord cfg dg jd]).length < R := by omega
        rw [ih (p ++ [processRecord cfg dg jd]) F e hlt]

theorem runLoop_eq (cfg : Config) (dg : String → List Nat)
    (lds : String → Option Record) (stream : List String) (hB : 1 ≤ cfg.bulkSize) :
    runLoop cfg dg lds stream =
      ⟨[],
       (chunksWithRem ((cfg.bulkSize + 1) / 2) (procs cfg dg lds stream)).map linesOf,
       nErr lds stream⟩ := by
  have hR : 1 ≤ (cfg.bulkSize + 1) / 2 := by omega
  unfold runLoop
  have h0 : (⟨[], [], 0⟩ : LoopState) =
      ⟨linesOf [], ([] : List (List Record)).map linesOf, 0⟩ := rfl
  rw [h0, foldl_stepLine cfg dg lds stream [] [] 0]
  rw [recLoop_eq_splitChunks cfg dg lds _ hR stream [] [] 0
    (by simp only [List.length_nil]; omega)]
  simp only [List.nil_append, Nat.zero_add, List.map_nil]
  set sc := splitChunks ((cfg.bulkSize + 1) / 2) (procs cfg dg lds stream) with hsc
  by_cases hrem : sc.2 = []
  · have hl : linesOf sc.2 = [] := by rw [hrem]; rfl
    simp only [hl, List.isEmpty_nil, if_true]
    unfold chunksWithRem
    rw [← hsc, hrem]
    simp
  · have hne : linesOf sc.2 ≠ [] := fun hx => hrem ((linesOf_eq_nil_iff sc.2).mp hx)
    rw [if_neg (by simpa [List.isEmpty_iff] using hne)]
    unfold chunksWithRem
    rw [← hsc]
    rw [if_neg (by simpa [List.isEmpty_iff] using hrem)]
    simp

theorem splitChunks_flatten {α : Type} (R : Nat) (l : List α) :
    (splitChunks R l).1.flatten ++ (splitChunks R l).2 = l := by
  induction l using splitChunks.induct R with
  | case1 l h ih =>
    rw [splitChunks, dif_pos h]
    simp only [List.flatten_cons, List.append_assoc]
    rw [ih]
    exact List.take_append_drop R l
  | case2 l h =>
    rw [splitChunks, dif_neg h]
    simp

theorem splitChunks_fst_length {α : Type} (R : Nat) (hR : 1 ≤ R) (l : List α) :
    (splitChunks R l).1.length = l.length / R := by
  induction l using splitChunks.induct R with
  | case1 l h ih =>
    rw [splitChunks, dif_pos h]
    simp only [List.length_cons]
    rw [ih]
    simp only [List.length_drop]
    rw [Nat.div_eq_sub_div (by omega) h.2]
  | case2 l h =>
    rw [splitChunks, dif_neg h]
    simp only [List.length_nil]
    rw [Nat.div_eq_of_lt (by omega)]

theorem splitChunks_snd_length {α : Type} (R : Nat) (hR : 1 ≤ R) (l : List α) :
    (splitChunks R l).2.length = l.length % R := by
  induction l using splitChunks.induct R with
  | case1 l h ih =>
    rw [splitChunks, dif_pos h]
    rw [ih]
    simp only [List.length_drop]
    rw [Nat.mod_eq_sub_mod h.2]
  | case2 l h =>
    rw [splitChunks, dif_neg h]
    rw [Nat.mod_eq_of_lt (by omega)]

theorem splitChunks_fst_mem {α : Type} (R : Nat) (l : List α) (c : List α)
    (hc : c ∈ (splitChunks R l).1) : c.length = R := by
  induction l using splitChunks.induct R with
  | case1 l h ih =>
    rw [splitChunks, dif_pos h] at hc
    rcases List.mem_cons.mp hc with h1 | h2
    · rw [h1]
      simp only [List.length_take]
      omega
    · exact ih h2
  | case2 l h =>
    rw [splitChunks, dif_neg h] at hc
    simp at hc

theorem ceil_div_split (N R : Nat) (hR : 1 ≤ R) :
    (N + R - 1) / R = N / R + (if N % R = 0 then 0 else 1) := by
  have hmod := Nat.mod_lt N (show 0 < R by omega)
  have hdm := Nat.div_add_mod N R
  by_cases h0 : N % R = 0
  · rw [if_pos h0]
    have h1 : N + R - 1 = (R - 1) + R * (N / R) := by omega
    rw [h1, Nat.add_mul_div_left _ _ (show 0 < R by omega), Nat.div_eq_of_lt (by omega)]
    omega
  · rw [if_neg h0]
    have h1 : N + R - 1 = (N % R - 1 + R * 1) + R * (N / R) := by omega
    rw [h1, Nat.add_mul_div_left _ _ (show 0 < R by omega),
      Nat.add_mul_div_left _ _ (show 0 < R by omega), Nat.div_eq_of_lt (by omega)]
    omega

theorem chunksWithRem_length {α : Type} (R : Nat) (hR : 1 ≤ R) (l : List α) :
    (chunksWithRem R l).length = (l.length + R - 1) / R := by
  unfold chunksWithRem
  rw [ceil_div_split l.length R hR]
  rw [List.length_append, splitChunks_fst_length R hR l]
  by_cases h : (splitChunks R l).2.isEmpty
  · have h2 : l.length % R = 0 := by
      have := splitChunks_snd_length R hR l
      rw [List.isEmpty_iff.mp h] at this
      simpa using this.symm
    rw [if_pos h, if_pos h2]
    simp
  · have h2 : l.length % R ≠ 0 := by
      intro hx
      have := splitChunks_snd_length R hR l
      rw [hx] at this
      exact h (List.isEmpty_iff.mpr (List.length_eq_zero.mp this))
    rw [if_neg h, if_neg h2]
    simp

theorem chunksWithRem_flatten {α : Type} (R : Nat) (l : List α) :
    (chunksWithRem R l).flatten = l := by
  unfold chunksWithRem
  by_cases h : (splitChunks R l).2.isEmpty
  · rw [if_pos h]
    have h' := List.isEmpty_iff.mp h
    have hfl := splitChunks_flatten R l
    rw [h'] at hfl
    simpa using hfl
  · rw [if_neg h]
    have hfl := splitChunks_flatten R l
    simpa using hfl

theorem chunksWithRem_dropLast_mem {α : Type} (R : Nat) (l : List α) (c : List α)
    (hc : c ∈ (chunksWithRem R l).dropLast) : c.length = R := by
  unfold chunksWithRem at hc
  by_cases h : (splitChunks R l).2.isEmpty
  · rw [if_pos h] at hc
    simp only [List.append_nil] at hc
    exact splitChunks_fst_mem R l c (List.dropLast_subset _ hc)
  · rw [if_neg h] at hc
    rw [List.dropLast_concat] at hc
    exact splitChunks_fst_mem R l c hc

theorem chunksWithRem_getLast {α : Type} (R : Nat) (hR : 1 ≤ R) (l : List α)
    (hl : l ≠ []) :
    ∃ c, (chunksWithRem R l).getLast? = some c ∧
      c.length = (if l.length % R = 0 then R else l.length % R) := by
  unfold chunksWithRem
  by_cases h : (splitChunks R l).2.isEmpty
  · have h' := List.isEmpty_iff.mp h
    have hm : l.length % R = 0 := by
      have := splitChunks_snd_length R hR l
      rw [h'] at this
      simpa using this.symm
    rw [if_pos h]
    have hCne : (splitChunks R l).1 ≠ [] := by
      intro hx
      have hflat := splitChunks_flatten R l
      rw [hx, h'] at hflat
      exact hl (by simpa using hflat.symm)
    refine ⟨(splitChunks R l).1.getLast hCne, ?_, ?_⟩
    · rw [List.append_nil]
      exact List.getLast?_eq_getLast _ hCne
    · rw [if_pos hm]
      exact splitChunks_fst_mem R l _ (List.getLast_mem hCne)
  · rw [if_neg h]
    refine ⟨(splitChunks R l).2, ?_, ?_⟩
    · rw [List.getLast?_concat]
    · have hm : l.length % R ≠ 0 := by
        intro hx
        have := splitChunks_snd_length R hR l
        rw [hx] at this
        exact h (List.isEmpty_iff.mpr (List.length_eq_zero.mp this))
      rw [if_neg hm]
      exact splitChunks_snd_length R hR l

theorem mem_chunksWithRem_mem {α : Type} (R : Nat) (l : List α) (c : List α)
    (hc : c ∈ chunksWithRem R l) (x : α) (hx : x ∈ c) : x ∈ l := by
  rw [← chunksWithRem_flatten R l]
  exact List.mem_flatten.mpr ⟨c, hc, hx⟩

/-! Helper lemmas: record fields and processing. -/

theorem getField_setField_self (r : Record) (k v : String) :
    getField (setField r k v) k = some v := by
  induction r with
  | nil => simp [setField, getField]
  | cons p r ih =>
    by_cases h : p.1 = k
    · simp [setField, getField, h]
    · simp only [setField]
      rw [if_neg h]
      simp only [getField]
      rw [if_neg h]
      exact ih

theorem getField_setField_ne (r : Record) (k key v : String) (h : key ≠ k) :
    getField (setField r key v) k = getField r k := by
  induction r with
  | nil => simp [setField, getField, h]
  | cons p r ih =>
    by_cases hp : p.1 = key
    · simp only [setField]
      rw [if_pos hp]
      simp only [getField]
      rw [if_neg h, if_neg (hp ▸ h ∘ Eq.symm ∘ Eq.symm)]
    · simp only [setField]
      rw [if_neg hp]
      simp only [getField]
      by_cases hk : p.1 = k
      · rw [if_pos hk, if_pos hk]
      · rw [if_neg hk, if_neg hk]
        exact ih

theorem getField_ite_setField (c : Prop) [Decidable c] (s : Record) (key w k : String)
    (h : key ≠ k) :
    getField (if c then setField s key w else s) k = getField s k := by
  split
  · exact getField_setField_ne s k key w h
  · rfl

theorem processRecord_timestamp (cfg : Config) (dg : String → List Nat) (r : Record) :
    getField (processRecord cfg dg r) ("@timestamp") = some cfg.timestamp := by
  simp only [processRecord]
  rw [getField_ite_setField _ _ _ _ _ (by decide)]
  rw [getField_ite_setField _ _ _ _ _ (by decide)]
  exact getField_setField_self r _ _

theorem procs_length_of_all_some (cfg : Config) (dg : String → List Nat)
    (lds : String → Option Record) (stream : List String)
    (h : ∀ l ∈ stream, (lds l).isSome) :
    (procs cfg dg lds stream).length = stream.length := by
  induction stream with
  | nil => rfl
  | cons l ls ih =>
    have hl : (lds l).isSome := h l (List.mem_cons_self l ls)
    rcases Option.isSome_iff_exists.mp hl with ⟨jd, hjd⟩
    rw [procs_cons_some cfg dg lds l ls jd hjd]
    simp only [List.length_cons]
    rw [ih (fun x hx => h x (List.mem_cons_of_mem l hx))]

theorem nErr_of_all_some (lds : String → Option Record) (stream : List String)
    (h : ∀ l ∈ stream, (lds l).isSome) : nErr lds stream = 0 := by
  unfold nErr
  have hnil : (stream.filter (fun l => (lds l).isNone)) = [] := by
    rw [List.filter_eq_nil_iff]
    intro l hl
    have hs := h l hl
    cases hx : lds l with
    | none => rw [hx] at hs; simp at hs
    | some jd => simp [hx]
  rw [hnil]
  rfl

theorem mem_procs_processed (cfg : Config) (dg : String → List Nat)
    (lds : String → Option Record) (stream : List String) (r : Record)
    (h : r ∈ procs cfg dg lds stream) :
    ∃ l jd, l ∈ stream ∧ lds l = some jd ∧ r = processRecord cfg dg jd := by
  unfold procs at h
  rcases List.mem_filterMap.mp h with ⟨l, hl, hmap⟩
  rcases Option.map_eq_some'.mp hmap with ⟨jd, hjd, hr⟩
  exact ⟨l, jd, hl, hjd, hr.symm⟩

theorem padChars_length (w n : Nat) : (padChars w n).length = w := by
  induction w generalizing n with
  | zero => rfl
  | succ w ih => simp only [padChars, List.length_cons, ih]

/-! Claim C1. -/

/-- C1 (amended): the flush threshold of both stdin loops counts buffer
lines — one action header plus one document per record — so with configured
`BULK_SIZE = B` a batch holds `R = ⌈B/2⌉` records, not `B`.  Feeding `N`
well-formed records performs exactly `⌈N/R⌉` bulk flushes; every flush
except possibly the last carries exactly `R` records; the last flush carries
`N mod R` records (or `R` when `R` divides `N`); across all flushes every
record appears exactly once, in order, with none duplicated or dropped; and
no batch is ever split mid-flush (each flush is the whole drained buffer,
one header per document). -/
theorem C1_batching (cfg : Config) (dg : String → List Nat)
    (lds : String → Option Record) (stream : List String) (R : Nat) (out : LoopState)
    (hB : 1 ≤ cfg.bulkSize) (hvalid : ∀ l ∈ stream, (lds l).isSome)
    (hR : R = (cfg.bulkSize + 1) / 2) (hout : out = runLoop cfg dg lds stream) :
    out.flushes.length = (stream.length + R - 1) / R ∧
    (∀ f ∈ out.flushes.dropLast, (docsOf f).length = R) ∧
    (stream ≠ [] → ∃ f, out.flushes.getLast? = some f ∧
      (docsOf f).length = (if stream.length % R = 0 then R else stream.length % R)) ∧
    (out.flushes.map docsOf).flatten = procs cfg dg lds stream ∧
    (∀ f ∈ out.flushes, f = linesOf (docsOf f)) ∧
    out.errors = 0 := by
  have hR1 : 1 ≤ R := by omega
  have hlen : (procs cfg dg lds stream).length = stream.length :=
    procs_length_of_all_some cfg dg lds stream hvalid
  subst hR hout
  rw [runLoop_eq cfg dg lds stream hB]
  refine ⟨?_, ?_, ?_, ?_, ?_, ?_⟩
  · simp only [List.length_map]
    rw [chunksWithRem_length _ hR1, hlen]
  · intro f hf
    rw [← List.map_dropLast] at hf
    rcases List.mem_map.mp hf with ⟨c, hc, hfc⟩
    rw [← hfc, docsOf_linesOf]
    exact chunksWithRem_dropLast_mem _ _ c hc
  · intro hne
    have hpne : procs cfg dg lds stream ≠ [] := by
      intro hx
      rw [hx] at hlen
      exact hne (List.length_eq_zero.mp hlen.symm)
    rcases chunksWithRem_getLast _ hR1 _ hpne with ⟨c, hc, hclen⟩
    refine ⟨linesOf c, ?_, ?_⟩
    · rw [List.getLast?_map, hc]
      rfl
    · rw [docsOf_linesOf, hclen, hlen]
  · rw [List.map_map]
    have hid : docsOf ∘ linesOf = id := funext docsOf_linesOf
    rw [hid, List.map_id]
    exact chunksWithRem_flatten _ _
  · intro f hf
    rcases List.mem_map.mp hf with ⟨c, hc, hfc⟩
    rw [← hfc, docsOf_linesOf]
  · exact nErr_of_all_some lds stream hvalid

/-- Digest stand-in used by concrete witnesses: a fixed 32-byte sequence. -/
def witnessDigest : String → List Nat := fun _ => List.range 32

/-- Parser stand-in used by concrete witnesses: every line is the empty
record. -/
def witnessLoads : String → Option Record := fun _ => some []

/-- Witness for C1: five well-formed records with `BULK_SIZE = 4`
(record capacity 2) produce three flushes. -/
theorem C1_batching_witness :
    (∀ l ∈ List.replicate 5 ("x"), (witnessLoads l).isSome) ∧
    (runLoop ⟨4, false, "", "TS"⟩ witnessDigest witnessLoads
      (List.replicate 5 ("x"))).flushes.length = 3 := by
  refine ⟨fun l _ => rfl, ?_⟩
  have h := C1_batching ⟨4, false, "", "TS"⟩ witnessDigest witnessLoads
    (List.replicate 5 ("x")) 2
    (runLoop ⟨4, false, "", "TS"⟩ witnessDigest witnessLoads (List.replicate 5 ("x")))
    (by decide) (fun l _ => rfl) (by decide) rfl
  exact h.1

/-- Counterexample to C1 as stated: with the default configuration
(`BULK_SIZE = 1000`) a stream of 501 well-formed records is flushed twice
(500 + 1 records), while the claim's `⌈N/B⌉` formula with `B = 1000`
records predicts a single flush. -/
theorem C1_batching_counterexample :
    (runLoop ⟨BULK_SIZE, false, "", "TS"⟩ witnessDigest witnessLoads
      (List.replicate 501 ("x"))).flushes.length = 2 ∧
    (501 + BULK_SIZE - 1) / BULK_SIZE = 1 := by
  constructor
  · rw [runLoop_eq _ _ _ _ (by decide)]
    simp only [List.length_map]
    rw [chunksWithRem_length _ (by decide)]
    rw [procs_length_of_all_some ⟨BULK_SIZE, false, "", "TS"⟩ witnessDigest
      witnessLoads (List.replicate 501 ("x")) (fun l _ => rfl)]
    decide
  · decide

/-! Claim C7. -/

/-- C7 (confirmed): for a stream of one invalid JSON line between two valid
lines, the loop reports exactly one decoding error, ingests exactly the two
valid records (in order, across all flushes), and drains its buffer —
`runLoop` is a total function, so the fold reaches the end of the stream and
the final flush: the parse failure never terminates the stream, and the run
reaches normal termination with an empty buffer. -/
theorem C7_malformed_line (cfg : Config) (dg : String → List Nat)
    (lds : String → Option Record) (l1 l2 l3 : String) (r1 r3 : Record)
    (hB : 1 ≤ cfg.bulkSize)
    (h1 : lds l1 = some r1) (h2 : lds l2 = none)
    (h3 : lds l3 = some r3) :
    (runLoop cfg dg lds [l1, l2, l3]).errors = 1 ∧
    ((runLoop cfg dg lds [l1, l2, l3]).flushes.map docsOf).flatten =
      [processRecord cfg dg r1, processRecord cfg dg r3] ∧
    (runLoop cfg dg lds [l1, l2, l3]).lines = [] := by
  rw [runLoop_eq cfg dg lds [l1, l2, l3] hB]
  refine ⟨?_, ?_, rfl⟩
  · simp [nErr, List.filter_cons, h1, h2, h3]
  · rw [List.map_map]
    have hid : docsOf ∘ linesOf = id := funext docsOf_linesOf
    rw [hid, List.map_id, chunksWithRem_flatten]
    simp [procs, List.filterMap_cons, h1, h2, h3]

/-- Witness for C7 at a concrete stream. -/
theorem C7_malformed_line_witness :
    ((fun s => if s = "bad" then none else some ([] : Record)) (("a")) = some [] ∧
     (fun s => if s = "bad" then none else some ([] : Record)) (("bad")) = none ∧
     (fun s => if s = "bad" then none else some ([] : Record)) (("c")) = some []) ∧
    (runLoop ⟨BULK_SIZE, false, "", "TS"⟩ witnessDigest
      (fun s => if s = "bad" then none else some ([] : Record))
      [("a"), ("bad"), ("c")]).errors = 1 := by
  refine ⟨⟨by decide, by decide, by decide⟩, ?_⟩
  have h := C7_malformed_line ⟨BULK_SIZE, false, "", "TS"⟩ witnessDigest
    (fun s => if s = "bad" then none else some ([] : Record))
    ("a") ("bad") ("c") [] [] (by decide) (by decide) (by decide) (by decide)
  exact h.1

/-! Claim C10. -/

/-- C10 (confirmed): every document of every flush of a run carries the
identical `@timestamp` value — the single string computed once at startup
from the process start instant (`TIMESTAMP now`), regardless of when during
the run the line was read; and that string is the second-precision,
`Z`-suffixed rendering (a 20-character string ending in `Z` for any valid
start instant). -/
theorem C10_single_timestamp (now : DateTime) (B : Nat) (ps : Bool) (salt : String)
    (dg : String → List Nat) (lds : String → Option Record) (stream : List String)
    (hB : 1 ≤ B) :
    (∀ f ∈ (runLoop ⟨B, ps, salt, TIMESTAMP now⟩ dg lds stream).flushes,
      ∀ doc ∈ docsOf f, getField doc ("@timestamp") = some (TIMESTAMP now)) ∧
    (∃ cs, (TIMESTAMP now).data = cs ++ ['Z']) ∧
    ((TIMESTAMP now).length = 20) := by
  refine ⟨?_, ?_, ?_⟩
  · intro f hf doc hdoc
    rw [runLoop_eq _ dg lds stream hB] at hf
    rcases List.mem_map.mp hf with ⟨c, hc, hfc⟩
    rw [← hfc, docsOf_linesOf] at hdoc
    have hmem : doc ∈ procs ⟨B, ps, salt, TIMESTAMP now⟩ dg lds stream :=
      mem_chunksWithRem_mem _ _ c hc doc hdoc
    rcases mem_procs_processed _ dg lds stream doc hmem with ⟨l, jd, _, _, hdocEq⟩
    rw [hdocEq]
    exact processRecord_timestamp _ dg jd
  · refine ⟨padChars 4 now.year ++ ['-'] ++ padChars 2 now.month ++ ['-'] ++
      padChars 2 now.day ++ ['T'] ++ padChars 2 now.hour ++ [':'] ++
      padChars 2 now.minute ++ [':'] ++ padChars 2 now.second, ?_⟩
    show (String.mk _).data = _
    simp [List.append_assoc]
  · show (TIMESTAMP now).data.length = 20
    simp [TIMESTAMP, padChars_length]

/-- Witness for C10 at a concrete run. -/
theorem C10_single_timestamp_witness :
    (1 : Nat) ≤ BULK_SIZE ∧
    (∀ f ∈ (runLoop ⟨BULK_SIZE, false, "", TIMESTAMP ⟨2024, 6, 15, 12, 0, 0⟩⟩
        witnessDigest witnessLoads [("a")]).flushes,
      ∀ doc ∈ docsOf f,
        getField doc ("@timestamp") = some (TIMESTAMP ⟨2024, 6, 15, 12, 0, 0⟩)) := by
  refine ⟨by decide, ?_⟩
  exact (C10_single_timestamp ⟨2024, 6, 15, 12, 0, 0⟩ BULK_SIZE false ("")
    witnessDigest witnessLoads [("a")] (by decide)).1

/-! Claim C6. -/

/-- C6 (confirmed): for the two-line stream
`{"ip_src":"10.0.0.1","ip_dst":"8.8.8.8"}` / `{"ip_src":"bad"}` with bulk
size 10, pseudonymization enabled and salt `"s"`, the loop produces exactly
one flush, and the pipeline issues exactly one bulk request per configured
target, each carrying the identical two-document batch; both documents are
stamped with the run timestamp; the second document's `ip_src` holds the
invalid-input sentinel `"Invalid IP: bad"` (no exception is modelled on this
path), and the second document has no `ip_dst` field. -/
theorem C6_end_to_end (dg : String → List Nat) (lds : String → Option Record)
    (ts : String) (targets : List Target) (l1 l2 : String)
    (h1 : lds l1 = some [(("ip_src"), ("10.0.0.1")), (("ip_dst"), ("8.8.8.8"))])
    (h2 : lds l2 = some [(("ip_src"), ("bad"))]) :
    ∃ b d1,
      (runLoop ⟨10, true, "s", ts⟩ dg lds [l1, l2]).flushes = [b] ∧
      pipelineCalls targets [b] = targets.map (fun t => (t, b)) ∧
      docsOf b = [d1, [(("ip_src"), ("Invalid IP: bad")), (("@timestamp"), ts)]] ∧
      getField d1 ("@timestamp") = some ts ∧
      getField [(("ip_src"), ("Invalid IP: bad")), (("@timestamp"), ts)] ("ip_src") =
        some ("Invalid IP: bad") ∧
      hasField [(("ip_src"), ("Invalid IP: bad")), (("@timestamp"), ts)] ("ip_dst") =
        false := by
  have hpr2 : processRecord ⟨10, true, "s", ts⟩ dg [(("ip_src"), ("bad"))] =
      [(("ip_src"), ("Invalid IP: bad")), (("@timestamp"), ts)] := rfl
  have hprocs : procs ⟨10, true, "s", ts⟩ dg lds [l1, l2] =
      [processRecord ⟨10, true, "s", ts⟩ dg
        [(("ip_src"), ("10.0.0.1")), (("ip_dst"), ("8.8.8.8"))],
       [(("ip_src"), ("Invalid IP: bad")), (("@timestamp"), ts)]] := by
    simp [procs, List.filterMap_cons, h1, h2, hpr2]
  refine ⟨linesOf (procs ⟨10, true, "s", ts⟩ dg lds [l1, l2]),
    processRecord ⟨10, true, "s", ts⟩ dg
      [(("ip_src"), ("10.0.0.1")), (("ip_dst"), ("8.8.8.8"))], ?_, ?_, ?_, ?_, rfl, rfl⟩
  · rw [runLoop_eq _ dg lds [l1, l2] (by simp)]
    show (chunksWithRem ((10 + 1) / 2) (procs ⟨10, true, "s", ts⟩ dg lds [l1, l2])).map
      linesOf = _
    rw [hprocs]
    rw [show ((10 + 1) / 2 : Nat) = 5 by decide]
    unfold chunksWithRem
    rw [splitChunks_of_lt 5 _ (by simp)]
    simp [hprocs]
  · simp [pipelineCalls]
  · rw [docsOf_linesOf, hprocs]
  · exact processRecord_timestamp _ dg _

/-- Witness for C6 at concrete parser, digest and target values. -/
theorem C6_end_to_end_witness :
    ((fun s => if s = "A" then
        some [(("ip_src"), ("10.0.0.1")), (("ip_dst"), ("8.8.8.8"))]
      else some [(("ip_src"), ("bad"))]) ("A") =
        some [(("ip_src"), ("10.0.0.1")), (("ip_dst"), ("8.8.8.8"))]) ∧
    ∃ b d1,
      (runLoop ⟨10, true, "s", "TS"⟩ witnessDigest
        (fun s => if s = "A" then
          some [(("ip_src"), ("10.0.0.1")), (("ip_dst"), ("8.8.8.8"))]
        else some [(("ip_src"), ("bad"))]) [("A"), ("B")]).flushes = [b] ∧
      pipelineCalls TARGETS [b] = TARGETS.map (fun t => (t, b)) ∧
      docsOf b = [d1, [(("ip_src"), ("Invalid IP: bad")), (("@timestamp"), ("TS"))]] ∧
      getField d1 ("@timestamp") = some ("TS") ∧
      getField [(("ip_src"), ("Invalid IP: bad")), (("@timestamp"), ("TS"))] ("ip_src") =
        some ("Invalid IP: bad") ∧
      hasField [(("ip_src"), ("Invalid IP: bad")), (("@timestamp"), ("TS"))] ("ip_dst") =
        false := by
  refine ⟨by decide, ?_⟩
  exact C6_end_to_end witnessDigest
    (fun s => if s = "A" then
      some [(("ip_src"), ("10.0.0.1")), (("ip_dst"), ("8.8.8.8"))]
    else some [(("ip_src"), ("bad"))]) ("TS") TARGETS ("A") ("B")
    (by decide) (by decide)

/-! Helper lemmas: characters, digits and split/join round-trips. -/

theorem decDigit_toNat (k : Nat) (hk : k < 10) : (decDigit k).toNat = 48 + k := by
  interval_cases k <;> decide

theorem decDigit_isDigit (k : Nat) (hk : k < 10) : (decDigit k).isDigit = true := by
  interval_cases k <;> decide

theorem decDigit_ne_zero_char (k : Nat) (hk : k < 10) (h : k ≠ 0) : decDigit k ≠ '0' := by
  interval_cases k
  · exact absurd rfl h
  all_goals decide

theorem isDigit_ne_dot (c : Char) (h : c.isDigit = true) : c ≠ '.' := by
  intro he
  rw [he] at h
  exact absurd h (by decide)

theorem isDigit_ne_dash (c : Char) (h : c.isDigit = true) : c ≠ '-' := by
  intro he
  rw [he] at h
  exact absurd h (by decide)

theorem splitOnChar_ne_nil (sep : Char) (l : List Char) : splitOnChar sep l ≠ [] := by
  cases l with
  | nil => simp [splitOnChar]
  | cons x xs =>
    simp only [splitOnChar]
    rcases hxs : splitOnChar sep xs with _ | ⟨g, gs⟩
    · simp
    · by_cases hx : x = sep <;> simp [hx]

theorem splitOnChar_not_mem (sep : Char) (l : List Char) (h : sep ∉ l) :
    splitOnChar sep l = [l] := by
  induction l with
  | nil => rfl
  | cons x xs ih =>
    have hx : ¬ x = sep := fun he => h (he ▸ List.mem_cons_self x xs)
    have hxs : sep ∉ xs := fun hm => h (List.mem_cons_of_mem x hm)
    simp only [splitOnChar, ih hxs]
    rw [if_neg hx]

theorem splitOnChar_append (sep : Char) (l1 l2 : List Char) (h : sep ∉ l1) :
    splitOnChar sep (l1 ++ sep :: l2) = l1 :: splitOnChar sep l2 := by
  induction l1 with
  | nil =>
    simp only [List.nil_append, splitOnChar]
    rcases hxs : splitOnChar sep l2 with _ | ⟨g, gs⟩
    · exact absurd hxs (splitOnChar_ne_nil sep l2)
    · simp
  | cons x xs ih =>
    have hx : ¬ x = sep := fun he => h (he ▸ List.mem_cons_self x _)
    have hxs : sep ∉ xs := fun hm => h (List.mem_cons_of_mem x hm)
    rw [List.cons_append]
    simp only [splitOnChar]
    rw [ih hxs]
    dsimp only
    rw [if_neg hx]

theorem intercalate_singleton {α : Type} (sep : α) (g : List α) :
    List.intercalate [sep] [g] = g := by
  simp [List.intercalate]

theorem intercalate_cons₂ {α : Type} (sep : α) (g g' : List α) (gs : List (List α)) :
    List.intercalate [sep] (g :: g' :: gs) =
      g ++ sep :: List.intercalate [sep] (g' :: gs) := by
  simp [List.intercalate, List.intersperse]

theorem splitOnChar_intercalate (sep : Char) (gs : List (List Char)) (hne : gs ≠ [])
    (h : ∀ g ∈ gs, sep ∉ g) :
    splitOnChar sep (List.intercalate [sep] gs) = gs := by
  induction gs with
  | nil => exact absurd rfl hne
  | cons g rest ih =>
    cases rest with
    | nil =>
      rw [intercalate_singleton, splitOnChar_not_mem sep g (h g (List.mem_cons_self g []))]
    | cons g' rest' =>
      rw [intercalate_cons₂, splitOnChar_append sep g _ (h g (List.mem_cons_self g _))]
      rw [ih (by simp) (fun x hx => h x (List.mem_cons_of_mem g hx))]

theorem decVal_aux (cs : List Char) (a : Nat) :
    cs.foldl (fun a c => a * 10 + (c.toNat - 48)) a = a * 10 ^ cs.length + decVal cs := by
  induction cs generalizing a with
  | nil => simp [decVal]
  | cons c cs ih =>
    simp only [List.foldl_cons, decVal, List.length_cons]
    rw [ih, ih (0 * 10 + (c.toNat - 48))]
    ring

theorem decVal_two (a b : Nat) (ha : a < 10) (hb : b < 10) :
    decVal [decDigit a, decDigit b] = a * 10 + b := by
  simp only [decVal, List.foldl_cons, List.foldl_nil,
    decDigit_toNat a ha, decDigit_toNat b hb]
  omega

theorem decVal_three (a b c : Nat) (ha : a < 10) (hb : b < 10) (hc : c < 10) :
    decVal [decDigit a, decDigit b, decDigit c] = (a * 10 + b) * 10 + c := by
  simp only [decVal, List.foldl_cons, List.foldl_nil,
    decDigit_toNat a ha, decDigit_toNat b hb, decDigit_toNat c hc]
  omega

theorem decVal_padChars (w n : Nat) (h : n < 10 ^ w) : decVal (padChars w n) = n := by
  induction w generalizing n with
  | zero =>
    simp only [pow_zero] at h
    interval_cases n
    rfl
  | succ w ih =>
    have hd : n / 10 ^ w < 10 := by
      rw [Nat.div_lt_iff_lt_mul (Nat.pos_pow_of_pos w (by omega))]
      calc n < 10 ^ (w + 1) := h
        _ = 10 * 10 ^ w := by ring
    simp only [padChars, decVal, List.foldl_cons]
    rw [decVal_aux, padChars_length, decDigit_toNat _ hd]
    have hq : 0 * 10 + (48 + n / 10 ^ w - 48) = n / 10 ^ w := by simp
    rw [hq]
    have hm := ih (n % 10 ^ w) (Nat.mod_lt n (Nat.pos_pow_of_pos w (by omega)))
    rw [hm]
    exact Nat.div_add_mod' n (10 ^ w)

theorem decChars_all_digits (n : Nat) (h : n ≤ 255) :
    ∀ c ∈ decChars n, c.isDigit = true := by
  intro c hc
  unfold decChars at hc
  by_cases h1 : n < 10
  · rw [if_pos h1] at hc
    simp only [List.mem_singleton] at hc
    rw [hc]
    exact decDigit_isDigit n h1
  · rw [if_neg h1] at hc
    by_cases h2 : n < 100
    · rw [if_pos h2] at hc
      simp only [List.mem_cons, List.not_mem_nil, or_false] at hc
      rcases hc with rfl | rfl
      · exact decDigit_isDigit _ (by omega)
      · exact decDigit_isDigit _ (by omega)
    · rw [if_neg h2] at hc
      simp only [List.mem_cons, List.not_mem_nil, or_false] at hc
      rcases hc with rfl | rfl | rfl
      · exact decDigit_isDigit _ (by omega)
      · exact decDigit_isDigit _ (by omega)
      · exact decDigit_isDigit _ (by omega)

theorem decChars_octetOK (n : Nat) (h : n ≤ 255) : octetOK (decChars n) = true := by
  have hdig := decChars_all_digits n h
  simp only [octetOK, Bool.and_eq_true, Bool.or_eq_true, decide_eq_true_eq,
    Bool.not_eq_true', List.all_eq_true]
  unfold decChars at hdig ⊢
  by_cases h1 : n < 10
  · rw [if_pos h1] at hdig ⊢
    refine ⟨⟨⟨⟨by simp, by simp⟩, hdig⟩, Or.inl (by simp)⟩, ?_⟩
    simp only [decVal, List.foldl_cons, List.foldl_nil, decDigit_toNat n h1]
    omega
  · rw [if_neg h1] at hdig ⊢
    by_cases h2 : n < 100
    · rw [if_pos h2] at hdig ⊢
      refine ⟨⟨⟨⟨by simp, by simp⟩, hdig⟩,
        Or.inr (decDigit_ne_zero_char _ (by omega) (by omega))⟩, ?_⟩
      rw [decVal_two _ _ (by omega) (by omega)]
      omega
    · rw [if_neg h2] at hdig ⊢
      refine ⟨⟨⟨⟨by simp, by simp⟩, hdig⟩,
        Or.inr (decDigit_ne_zero_char _ (by omega) (by omega))⟩, ?_⟩
      rw [decVal_three _ _ _ (by omega) (by omega) (by omega)]
      omega

theorem hexDigit_isHex (k : Nat) (hk : k < 16) : isHexChar (hexDigit k) = true := by
  interval_cases k <;> decide

theorem isHexChar_ne_colon (c : Char) (h : isHexChar c = true) : c ≠ ':' := by
  intro he
  rw [he] at h
  exact absurd h (by decide)

theorem hex4Chars_hexGroupOK (n : Nat) : hexGroupOK (hex4Chars n) = true := by
  simp only [hexGroupOK, hex4Chars, Bool.and_eq_true, decide_eq_true_eq,
    Bool.not_eq_true', List.all_eq_true]
  refine ⟨⟨by simp, by simp⟩, ?_⟩
  intro c hc
  simp only [List.mem_cons, List.not_mem_nil, or_false] at hc
  rcases hc with rfl | rfl | rfl | rfl <;>
    exact hexDigit_isHex _ (Nat.mod_lt _ (by omega))

theorem hex4Chars_no_colon (n : Nat) : (':') ∉ hex4Chars n := by
  intro hmem
  have hall := hex4Chars_hexGroupOK n
  simp only [hexGroupOK, Bool.and_eq_true, List.all_eq_true] at hall
  exact isHexChar_ne_colon _ (hall.2 _ hmem) rfl

theorem pseudonymize_ipv4_valid (dg : String → List Nat) (ip salt : String)
    (hlen : (dg (salt ++ ip)).length = 32)
    (hbyte : ∀ b ∈ dg (salt ++ ip), b < 256) :
    isIPv4String (pseudonymize_ipv4 dg ip salt) = true := by
  unfold pseudonymize_ipv4 isIPv4String
  have hb : ∀ b ∈ (dg (salt ++ ip)).take 4, b ≤ 255 := by
    intro b hbm
    have := hbyte b (List.mem_of_mem_take hbm)
    omega
  have hlen4 : ((dg (salt ++ ip)).take 4).length = 4 := by
    rw [List.length_take, hlen]
    omega
  have hne : ((dg (salt ++ ip)).take 4).map decChars ≠ [] := by
    intro hx
    have h0 := congrArg List.length hx
    rw [List.length_map, hlen4] at h0
    simp at h0
  have hnodot : ∀ g ∈ ((dg (salt ++ ip)).take 4).map decChars, ('.') ∉ g := by
    intro g hg hdot
    rcases List.mem_map.mp hg with ⟨b, hbm, hgb⟩
    exact isDigit_ne_dot _ (decChars_all_digits b (hb b hbm) _ (hgb ▸ hdot)) rfl
  show (decide _ && _) = true
  rw [splitOnChar_intercalate ('.') _ hne hnodot]
  simp only [Bool.and_eq_true, decide_eq_true_eq, List.all_eq_true, List.length_map]
  refine ⟨hlen4, ?_⟩
  intro g hg
  rcases List.mem_map.mp hg with ⟨b, hbm, hgb⟩
  rw [← hgb]
  exact decChars_octetOK b (hb b hbm)

theorem pseudonymize_ipv6_valid (dg : String → List Nat) (ip salt : String) :
    isIPv6String (pseudonymize_ipv6 dg ip salt) = true := by
  unfold pseudonymize_ipv6 isIPv6String
  set hb := dg (salt ++ ip) with hhb
  set gs := (List.range 8).map
    (fun i => hex4Chars (((hb.getD (2 * i) 0) <<< 8 ||| hb.getD (2 * i + 1) 0) &&& 65535))
    with hgs
  have hne : gs ≠ [] := by
    intro hx
    have h0 := congrArg List.length hx
    rw [hgs] at h0
    simp at h0
  have hnocolon : ∀ g ∈ gs, (':') ∉ g := by
    intro g hg
    rcases List.mem_map.mp hg with ⟨i, _, hgi⟩
    rw [← hgi]
    exact hex4Chars_no_colon _
  show (decide _ && _) = true
  rw [splitOnChar_intercalate (':') gs hne hnocolon]
  simp only [Bool.and_eq_true, decide_eq_true_eq, List.all_eq_true]
  refine ⟨?_, ?_⟩
  · rw [hgs]
    simp
  · intro g hg
    rcases List.mem_map.mp hg with ⟨i, _, hgi⟩
    rw [← hgi]
    exact hex4Chars_hexGroupOK _

/-! Claim C5. -/

/-- C5 (confirmed): `pseudonymize_ip` is deterministic — it is a pure
function of the digest, input and salt, so two calls with identical input
and salt return identical output (the digest `hashlib.sha256` is itself a
function of its input); and for every input the embedded address parser
accepts, the output is a syntactically valid address of the same family:
for IPv4 the dotted-decimal rendering of the first 4 bytes of the digest of
`salt ++ ip`, for IPv6 eight 16-bit hextets drawn from the first 16 digest
bytes.  The digest hypotheses state the SHA-256 output format (32 bytes,
each below 256). -/
theorem C5_pseudonymize (dg : String → List Nat) (salt ip : String)
    (hlen : (dg (salt ++ ip)).length = 32)
    (hbyte : ∀ b ∈ dg (salt ++ ip), b < 256) :
    (∀ ip' salt', ip' = ip → salt' = salt →
      pseudonymize_ip dg ip' salt' = pseudonymize_ip dg ip salt) ∧
    (ip_address ip = some IPFamily.v4 →
      pseudonymize_ip dg ip salt =
        String.mk (List.intercalate ['.'] (((dg (salt ++ ip)).take 4).map decChars)) ∧
      isIPv4String (pseudonymize_ip dg ip salt) = true) ∧
    (ip_address ip = some IPFamily.v6 →
      pseudonymize_ip dg ip salt =
        String.mk (List.intercalate [':']
          (((List.range 8).map (fun i =>
            hex4Chars ((((dg (salt ++ ip)).getD (2 * i) 0) <<< 8 |||
              (dg (salt ++ ip)).getD (2 * i + 1) 0) &&& 65535))))) ∧
      isIPv6String (pseudonymize_ip dg ip salt) = true) := by
  refine ⟨?_, ?_, ?_⟩
  · intro ip' salt' h1 h2
    rw [h1, h2]
  · intro hv4
    unfold pseudonymize_ip
    rw [hv4]
    exact ⟨rfl, pseudonymize_ipv4_valid dg ip salt hlen hbyte⟩
  · intro hv6
    unfold pseudonymize_ip
    rw [hv6]
    exact ⟨rfl, pseudonymize_ipv6_valid dg ip salt⟩

/-- Witness for C5 at a concrete digest, salt and IPv4 input. -/
theorem C5_pseudonymize_witness :
    ((witnessDigest (("s") ++ ("10.0.0.1"))).length = 32 ∧
     (∀ b ∈ witnessDigest (("s") ++ ("10.0.0.1")), b < 256) ∧
     ip_address ("10.0.0.1") = some IPFamily.v4) ∧
    isIPv4String (pseudonymize_ip witnessDigest ("10.0.0.1") ("s")) = true := by
  refine ⟨⟨by decide, by decide, by decide⟩, ?_⟩
  exact ((C5_pseudonymize witnessDigest ("s") ("10.0.0.1")
    (by decide) (by decide)).2.1 (by decide)).2

/-! Claim C8. -/

/-- C8 (amended): on a flush, the fan-out loop attempts every configured
target in order, each exactly once, with the identical batch payload, and a
failing HTTP response (non-success status) from one target is only reported
— it neither prevents the attempt against, nor throws for, nor invalidates
the outcome of, any other target: provided no send raises a transport
exception, the attempted calls are exactly one per target with the same
data and the loop does not abort, and a send whose behaviour is any HTTP
status (success or failure) never raises.  (A raised transport exception,
by contrast, is caught nowhere in `send_to_opensearch` and aborts the
remaining targets — see the counterexample.) -/
theorem C8_fanout (behave : Target → ReqRes) (data : List BulkLine)
    (targets : List Target)
    (hnoraise : ∀ t ∈ targets, behave t ≠ ReqRes.raise) :
    fanout behave data targets = (targets.map (fun t => (t, data)), false) ∧
    (∀ t c, behave t = ReqRes.status c → send_to_opensearch behave t ≠ none) := by
  constructor
  · induction targets with
    | nil => rfl
    | cons t ts ih =>
      cases hb : behave t with
      | raise => exact absurd hb (hnoraise t (List.mem_cons_self t ts))
      | status c =>
        simp only [fanout, send_to_opensearch, hb]
        rw [ih (fun x hx => hnoraise x (List.mem_cons_of_mem t hx))]
        simp
  · intro t c hc
    simp [send_to_opensearch, hc]

/-- Witness for C8: two targets, the first answering with a failing status
500 and the second with 200 — both are attempted, with identical data. -/
theorem C8_fanout_witness :
    (∀ t ∈ [(⟨"h1", 9200⟩ : Target), ⟨"h2", 9200⟩],
      (fun tt => if tt = (⟨"h1", 9200⟩ : Target) then ReqRes.status 500
        else ReqRes.status 200) t ≠ ReqRes.raise) ∧
    fanout (fun tt => if tt = (⟨"h1", 9200⟩ : Target) then ReqRes.status 500
        else ReqRes.status 200) [BulkLine.header]
      [(⟨"h1", 9200⟩ : Target), ⟨"h2", 9200⟩] =
      ([(⟨"h1", 9200⟩, [BulkLine.header]), (⟨"h2", 9200⟩, [BulkLine.header])], false) := by
  refine ⟨by decide, ?_⟩
  have h := (C8_fanout
    (fun tt => if tt = (⟨"h1", 9200⟩ : Target) then ReqRes.status 500
      else ReqRes.status 200) [BulkLine.header]
    [(⟨"h1", 9200⟩ : Target), ⟨"h2", 9200⟩] (by decide)).1
  rw [h]
  rfl

/-- Counterexample to C8 as stated: a transport error (a raised exception
from `requests.post`) against the first of two targets is caught nowhere,
so the second target is never attempted — one target's transport failure
does prevent the attempt against another. -/
theorem C8_fanout_counterexample :
    fanout (fun tt => if tt = (⟨"h1", 9200⟩ : Target) then ReqRes.raise
        else ReqRes.status 200) [BulkLine.header]
      [(⟨"h1", 9200⟩ : Target), ⟨"h2", 9200⟩] =
      ([(⟨"h1", 9200⟩, [BulkLine.header])], true) ∧
    ((⟨"h2", 9200⟩ : Target), [BulkLine.header]) ∉
      (fanout (fun tt => if tt = (⟨"h1", 9200⟩ : Target) then ReqRes.raise
        else ReqRes.status 200) [BulkLine.header]
      [(⟨"h1", 9200⟩ : Target), ⟨"h2", 9200⟩]).1 := by
  constructor
  · rfl
  · decide

/-! Helper lemmas: partition names, parsing round-trip and purge sweeps. -/

theorem padChars_all_digits (w n : Nat) (h : n < 10 ^ w) :
    ∀ c ∈ padChars w n, c.isDigit = true := by
  induction w generalizing n with
  | zero => intro c hc; simp [padChars] at hc
  | succ w ih =>
    intro c hc
    have hd : n / 10 ^ w < 10 := by
      rw [Nat.div_lt_iff_lt_mul (Nat.pos_pow_of_pos w (by omega))]
      calc n < 10 ^ (w + 1) := h
        _ = 10 * 10 ^ w := by ring
    simp only [padChars, List.mem_cons] at hc
    rcases hc with rfl | hc
    · exact decDigit_isDigit _ hd
    · exact ih (n % 10 ^ w) (Nat.mod_lt n (Nat.pos_pow_of_pos w (by omega))) c hc

theorem pow10_4 : (10 : Nat) ^ 4 = 10000 := by norm_num

theorem pow10_2 : (10 : Nat) ^ 2 = 100 := by norm_num

theorem isPrefixOf_append_self (l1 l2 : List Char) : l1.isPrefixOf (l1 ++ l2) = true := by
  induction l1 with
  | nil => simp [List.isPrefixOf]
  | cons x xs ih => simp [List.isPrefixOf, ih]

theorem daysInMonth_le_31 (y m : Nat) : daysInMonth y m ≤ 31 := by
  unfold daysInMonth
  split
  · split <;> omega
  · split <;> omega

/-- The character payload of `INDEX_NAME` after the `sflow-` prefix. -/
def dateChars (t : DateTime) : List Char :=
  padChars 4 t.year ++ ['.'] ++ padChars 2 t.month ++ ['.'] ++ padChars 2 t.day

theorem INDEX_NAME_data (t : DateTime) :
    (INDEX_NAME t).data = ('s' :: 'f' :: 'l' :: 'o' :: 'w' :: '-' :: dateChars t) := rfl

theorem dateChars_all_ok (t : DateTime) (h : t.valid) :
    ∀ c ∈ dateChars t, c.isDigit = true ∨ c = '.' := by
  rcases h with ⟨⟨hy1, hy2, hm1, hm2, hd1, hd2⟩, _⟩
  have hdm : daysInMonth t.year t.month ≤ 31 := daysInMonth_le_31 t.year t.month
  intro c hc
  unfold dateChars at hc
  simp only [List.mem_append, List.mem_singleton] at hc
  rcases hc with (((hp | hdot) | hp) | hdot) | hp
  · exact Or.inl (padChars_all_digits 4 t.year (by rw [pow10_4]; omega) c hp)
  · exact Or.inr hdot
  · exact Or.inl (padChars_all_digits 2 t.month (by rw [pow10_2]; omega) c hp)
  · exact Or.inr hdot
  · exact Or.inl (padChars_all_digits 2 t.day (by rw [pow10_2]; omega) c hp)

theorem dateChars_no_dash (t : DateTime) (h : t.valid) : ('-') ∉ dateChars t := by
  intro hmem
  rcases dateChars_all_ok t h ('-') hmem with hdig | hdot
  · exact isDigit_ne_dash _ hdig rfl
  · exact absurd hdot (by decide)

theorem hasSflowPrefix_INDEX_NAME (t : DateTime) :
    hasSflowPrefix (INDEX_NAME t) = true := by
  unfold hasSflowPrefix
  rw [INDEX_NAME_data]
  exact isPrefixOf_append_self (("sflow-").data) (dateChars t)

theorem nameDateSuffix_INDEX_NAME (t : DateTime) (h : t.valid) :
    nameDateSuffix (INDEX_NAME t) = String.mk (dateChars t) := by
  unfold nameDateSuffix
  rw [INDEX_NAME_data]
  have hsplit : splitOnChar ('-') ('s' :: 'f' :: 'l' :: 'o' :: 'w' :: '-' :: dateChars t) =
      ['s', 'f', 'l', 'o', 'w'] :: splitOnChar ('-') (dateChars t) := by
    have hx := splitOnChar_append ('-') (['s', 'f', 'l', 'o', 'w']) (dateChars t) (by decide)
    simpa using hx
  rw [hsplit, splitOnChar_not_mem ('-') (dateChars t) (dateChars_no_dash t h)]
  rfl

theorem strptimeYMD_INDEX_NAME (t : DateTime) (h : t.valid) :
    strptimeYMD (nameDateSuffix (INDEX_NAME t)) = some (t.year, t.month, t.day) := by
  have hv := h
  rcases h with ⟨⟨hy1, hy2, hm1, hm2, hd1, hd2⟩, _⟩
  have hyb : t.year < 10 ^ 4 := by rw [pow10_4]; omega
  have hmb : t.month < 10 ^ 2 := by rw [pow10_2]; omega
  have hdb : t.day < 10 ^ 2 := by
    have := daysInMonth_le_31 t.year t.month
    rw [pow10_2]; omega
  have hd4 : ('.') ∉ padChars 4 t.year :=
    fun hm => isDigit_ne_dot _ (padChars_all_digits 4 t.year hyb _ hm) rfl
  have hd2m : ('.') ∉ padChars 2 t.month :=
    fun hm => isDigit_ne_dot _ (padChars_all_digits 2 t.month hmb _ hm) rfl
  have hd2d : ('.') ∉ padChars 2 t.day :=
    fun hm => isDigit_ne_dot _ (padChars_all_digits 2 t.day hdb _ hm) rfl
  rw [nameDateSuffix_INDEX_NAME t hv]
  unfold strptimeYMD
  have hsplit : splitOnChar ('.') (String.mk (dateChars t)).data =
      [padChars 4 t.year, padChars 2 t.month, padChars 2 t.day] := by
    show splitOnChar ('.') (dateChars t) = _
    unfold dateChars
    have hassoc :
        padChars 4 t.year ++ ['.'] ++ padChars 2 t.month ++ ['.'] ++ padChars 2 t.day =
        padChars 4 t.year ++ ('.') ::
          (padChars 2 t.month ++ ('.') :: padChars 2 t.day) := by
      simp [List.append_assoc]
    rw [hassoc, splitOnChar_append ('.') _ _ hd4, splitOnChar_append ('.') _ _ hd2m,
      splitOnChar_not_mem ('.') _ hd2d]
  rw [hsplit]
  dsimp only
  rw [if_pos ?hcond]
  case hcond =>
    refine ⟨padChars_length 4 t.year, ?_, Or.inr (padChars_length 2 t.month), ?_,
      Or.inr (padChars_length 2 t.day), ?_⟩
    · exact List.all_eq_true.mpr (fun c hc => padChars_all_digits 4 t.year hyb c hc)
    · exact List.all_eq_true.mpr (fun c hc => padChars_all_digits 2 t.month hmb c hc)
    · exact List.all_eq_true.mpr (fun c hc => padChars_all_digits 2 t.day hdb c hc)
  rw [decVal_padChars 4 t.year hyb, decVal_padChars 2 t.month hmb,
    decVal_padChars 2 t.day hdb]
  rw [if_pos ⟨hy1, hm1, hm2, hd1, hd2⟩]

theorem shouldDelete_INDEX_NAME_false (t : DateTime) (h : t.valid) :
    shouldDelete t.toSec RETENTION_DAYS (INDEX_NAME t) = false := by
  have hv := h
  unfold shouldDelete
  rw [hasSflowPrefix_INDEX_NAME t, strptimeYMD_INDEX_NAME t h]
  dsimp only
  rw [Bool.true_and, decide_eq_false]
  intro hlt
  rcases hv with ⟨_, hh, hmi, hs⟩
  unfold DateTime.toSec RETENTION_DAYS at hlt
  omega

theorem idx_lt_of_not_mem_right {α : Type} (a b : List α) (i : Nat) (x : α)
    (h : (a ++ b).get? i = some x) (hx : x ∉ b) : i < a.length := by
  by_contra hge
  push_neg at hge
  rw [List.get?_append_right hge] at h
  exact hx (List.get?_mem h)

theorem idx_ge_of_not_mem_left {α : Type} (a b : List α) (i : Nat) (x : α)
    (h : (a ++ b).get? i = some x) (hx : x ∉ a) : a.length ≤ i := by
  by_contra hlt
  push_neg at hlt
  rw [List.get?_append hlt] at h
  exact hx (List.get?_mem h)

theorem mem_writes_is_bulkSend (targets : List Target) (fc : Nat) (x : Event)
    (hx : x ∈ ((List.range fc).map (fun _ => targets.map Event.bulkSend)).flatten) :
    ∃ t, x = Event.bulkSend t := by
  rcases List.mem_flatten.mp hx with ⟨l, hl, hxl⟩
  rcases List.mem_map.mp hl with ⟨i, _, hli⟩
  rw [← hli] at hxl
  rcases List.mem_map.mp hxl with ⟨t, _, hxt⟩
  exact ⟨t, hxt.symm⟩

theorem mem_ensures_is_ensure (targets : List Target) (x : Event)
    (hx : x ∈ targets.map Event.ensure) : ∃ t, x = Event.ensure t := by
  rcases List.mem_map.mp hx with ⟨t, _, hxt⟩
  exact ⟨t, hxt.symm⟩

theorem mem_purges_is_purge (targets : List Target) (x : Event)
    (hx : x ∈ targets.map Event.purge) : ∃ t, x = Event.purge t := by
  rcases List.mem_map.mp hx with ⟨t, _, hxt⟩
  exact ⟨t, hxt.symm⟩

/-! Claim C2. -/

/-- C2 (amended): in each invocation the retention purge runs exactly once
per configured target, at startup — but after the partition
existence-check/create of each target, not before it (the top-level order
in both scripts is create first, then purge); every purge still precedes
every bulk write.  A freshly created current-day partition is nonetheless
never deleted in the same run, because the current day's partition date is
always within the retention window at the instant the name was derived
from. -/
theorem C2_startup_order :
    (∀ targets : List Target, targets.Nodup → ∀ t ∈ targets, ∀ fc : Nat,
      (runTrace_os targets fc).count (Event.purge t) = 1) ∧
    (∀ (targets : List Target) (fc i j : Nat) (t t' : Target),
      (runTrace_os targets fc).get? i = some (Event.ensure t) →
      (runTrace_os targets fc).get? j = some (Event.purge t') → i < j) ∧
    (∀ (targets : List Target) (fc i j : Nat) (t t' : Target),
      (runTrace_os targets fc).get? i = some (Event.purge t) →
      (runTrace_os targets fc).get? j = some (Event.bulkSend t') → i < j) ∧
    (∀ t : DateTime, t.valid →
      shouldDelete t.toSec RETENTION_DAYS (INDEX_NAME t) = false) := by
  refine ⟨?_, ?_, ?_, shouldDelete_INDEX_NAME_false⟩
  · intro targets hnd t ht fc
    unfold runTrace_os startupTrace_os
    rw [List.count_append, List.count_append]
    have h1 : (targets.map Event.ensure).count (Event.purge t) = 0 := by
      rw [List.count_eq_zero]
      intro hx
      rcases mem_ensures_is_ensure targets _ hx with ⟨u, hu⟩
      exact Event.noConfusion hu
    have h2 : (targets.map Event.purge).count (Event.purge t) = 1 := by
      rw [List.count_map_of_injective targets Event.purge
        (fun a b hab => by injection hab) t]
      exact List.count_eq_one_of_mem hnd ht
    have h3 : (((List.range fc).map (fun _ => targets.map Event.bulkSend)).flatten).count
        (Event.purge t) = 0 := by
      rw [List.count_eq_zero]
      intro hx
      rcases mem_writes_is_bulkSend targets fc _ hx with ⟨u, hu⟩
      exact Event.noConfusion hu
    rw [h1, h2, h3]
  · intro targets fc i j t t' hi hj
    unfold runTrace_os startupTrace_os at hi hj
    rw [List.append_assoc] at hi hj
    have hiLt : i < (targets.map Event.ensure).length := by
      refine idx_lt_of_not_mem_right _ _ i _ hi ?_
      intro hx
      rcases List.mem_append.mp hx with hx | hx
      · rcases mem_purges_is_purge targets _ hx with ⟨u, hu⟩
        exact Event.noConfusion hu
      · rcases mem_writes_is_bulkSend targets fc _ hx with ⟨u, hu⟩
        exact Event.noConfusion hu
    have hjGe : (targets.map Event.ensure).length ≤ j := by
      refine idx_ge_of_not_mem_left _ _ j _ hj ?_
      intro hx
      rcases mem_ensures_is_ensure targets _ hx with ⟨u, hu⟩
      exact Event.noConfusion hu
    omega
  · intro targets fc i j t t' hi hj
    unfold runTrace_os at hi hj
    have hiLt : i < (startupTrace_os targets).length := by
      refine idx_lt_of_not_mem_right _ _ i _ hi ?_
      intro hx
      rcases mem_writes_is_bulkSend targets fc _ hx with ⟨u, hu⟩
      exact Event.noConfusion hu
    have hjGe : (startupTrace_os targets).length ≤ j := by
      refine idx_ge_of_not_mem_left _ _ j _ hj ?_
      intro hx
      unfold startupTrace_os at hx
      rcases List.mem_append.mp hx with hx | hx
      · rcases mem_ensures_is_ensure targets _ hx with ⟨u, hu⟩
        exact Event.noConfusion hu
      · rcases mem_purges_is_purge targets _ hx with ⟨u, hu⟩
        exact Event.noConfusion hu
    omega

/-- Witness for C2 at a concrete two-target configuration and a concrete
start instant. -/
theorem C2_startup_order_witness :
    ([(⟨"hA", 9200⟩ : Target), ⟨"hB", 9200⟩].Nodup ∧
     (⟨"hA", 9200⟩ : Target) ∈ [(⟨"hA", 9200⟩ : Target), ⟨"hB", 9200⟩] ∧
     (DateTime.valid ⟨2024, 6, 15, 12, 0, 0⟩)) ∧
    (runTrace_os [(⟨"hA", 9200⟩ : Target), ⟨"hB", 9200⟩] 1).count
      (Event.purge ⟨"hA", 9200⟩) = 1 ∧
    shouldDelete (DateTime.toSec ⟨2024, 6, 15, 12, 0, 0⟩) RETENTION_DAYS
      (INDEX_NAME ⟨2024, 6, 15, 12, 0, 0⟩) = false := by
  refine ⟨⟨by decide, by decide, by decide⟩, ?_, ?_⟩
  · exact C2_startup_order.1 [(⟨"hA", 9200⟩ : Target), ⟨"hB", 9200⟩] (by decide)
      (⟨"hA", 9200⟩ : Target) (by decide) 1
  · exact C2_startup_order.2.2.2 ⟨2024, 6, 15, 12, 0, 0⟩ (by decide)

/-- Counterexample to C2 as stated: in both scripts the first purge event
occurs strictly after the first existence-check/create event, so the purge
does not run "strictly before the partition existence-check/create". -/
theorem C2_startup_order_counterexample :
    ¬ (List.indexOf (Event.purge ⟨"hA", 9200⟩)
        (startupTrace_os [(⟨"hA", 9200⟩ : Target), ⟨"hB", 9200⟩]) <
       List.indexOf (Event.ensure ⟨"hA", 9200⟩)
        (startupTrace_os [(⟨"hA", 9200⟩ : Target), ⟨"hB", 9200⟩])) ∧
    ¬ (List.indexOf (Event.purge esTarget) startupTrace_es <
       List.indexOf (Event.ensure esTarget) startupTrace_es) := by
  constructor
  · decide
  · decide

theorem purge_es_deleted_spec (nowSec : Int) (ret : Nat) (db : String → ReqRes)
    (rows : List (List String))
    (hrows : ∀ row ∈ rows, 2 < row.length)
    (hdb : ∀ n, db n = ReqRes.status 200) :
    (Pm2es.purge_old_indices nowSec ret db rows).deleted =
      (rows.map (fun r => r.getD 2 (""))).filter (shouldDelete nowSec ret) ∧
    (Pm2es.purge_old_indices nowSec ret db rows).outcome = SweepEnd.finished ∧
    (Pm2es.purge_old_indices nowSec ret db rows).remaining = [] := by
  induction rows with
  | nil => exact ⟨rfl, rfl, rfl⟩
  | cons row rest ih =>
    have hrow : 2 < row.length := hrows row (List.mem_cons_self _ _)
    have hrest : ∀ r ∈ rest, 2 < r.length :=
      fun r hr => hrows r (List.mem_cons_of_mem _ hr)
    obtain ⟨name, hname⟩ : ∃ v, row.get? 2 = some v := by
      cases hv : row.get? 2 with
      | none =>
        have := List.get?_eq_none.mp hv
        omega
      | some v => exact ⟨v, rfl⟩
    have hgetD : row.getD 2 ("") = name := by
      rw [List.getD_eq_get?, hname]
      rfl
    obtain ⟨hdel, hout, hrem⟩ := ih hrest
    simp only [Pm2es.purge_old_indices, hname]
    rw [List.map_cons, List.filter_cons, hgetD]
    by_cases hpre : hasSflowPrefix name = true
    · cases hst : strptimeYMD (nameDateSuffix name) with
      | none =>
        rw [if_pos hpre]
        have hsd : shouldDelete nowSec ret name = false := by
          unfold shouldDelete
          rw [hpre, hst, Bool.true_and]
        rw [hsd]
        dsimp only
        exact ⟨hdel, hout, hrem⟩
      | some ymd =>
        rw [if_pos hpre]
        rcases ymd with ⟨y, m, d⟩
        by_cases hold : (86400 * (daysFromCivil y m d : Int)) < nowSec - (ret : Int) * 86400
        · have hsd : shouldDelete nowSec ret name = true := by
            unfold shouldDelete
            rw [hpre, hst, Bool.true_and]
            exact decide_eq_true hold
          rw [hsd]
          dsimp only
          rw [if_pos hold, hdb name]
          dsimp only
          rw [if_pos rfl]
          refine ⟨?_, hout, hrem⟩
          rw [hdel]
          simp
        · have hsd : shouldDelete nowSec ret name = false := by
            unfold shouldDelete
            rw [hpre, hst, Bool.true_and]
            exact decide_eq_false hold
          rw [hsd]
          dsimp only
          rw [if_neg hold]
          exact ⟨hdel, hout, hrem⟩
    · rw [if_neg hpre]
      have hsd : shouldDelete nowSec ret name = false := by
        unfold shouldDelete
        rw [Bool.eq_false_iff.mpr hpre, Bool.false_and]
      rw [hsd]
      exact ⟨hdel, hout, hrem⟩

/-! Claim C4. -/

/-- C4 (confirmed): over any listing whose rows carry the index name in
column 2, with deletes answered by status 200, the `pm2es.py` retention
sweep deletes a listed partition if and only if its name has the `sflow-`
prefix, its date suffix parses, and the parsed date is strictly older than
`now − retention_days`; in particular at `D = 2024-06-15 12:00:00` UTC with
retention 9 days, of the partitions dated `D−20`, `D−10`, `D−8`, `D−1`
exactly the first two are deleted. -/
theorem C4_retention :
    (∀ (nowSec : Int) (ret : Nat) (db : String → ReqRes) (rows : List (List String)),
      (∀ row ∈ rows, 2 < row.length) → (∀ n, db n = ReqRes.status 200) →
      (Pm2es.purge_old_indices nowSec ret db rows).deleted =
        (rows.map (fun r => r.getD 2 (""))).filter (shouldDelete nowSec ret) ∧
      (∀ name, name ∈ (Pm2es.purge_old_indices nowSec ret db rows).deleted ↔
        (name ∈ rows.map (fun r => r.getD 2 ("")) ∧
          shouldDelete nowSec ret name = true))) ∧
    (Pm2es.purge_old_indices (DateTime.toSec ⟨2024, 6, 15, 12, 0, 0⟩) RETENTION_DAYS
      (fun _ => ReqRes.status 200)
      [[("g"), ("o"), ("sflow-2024.05.26")], [("g"), ("o"), ("sflow-2024.06.05")],
       [("g"), ("o"), ("sflow-2024.06.07")],
       [("g"), ("o"), ("sflow-2024.06.14")]]).deleted =
      [("sflow-2024.05.26"), ("sflow-2024.06.05")] := by
  constructor
  · intro nowSec ret db rows hrows hdb
    obtain ⟨hdel, _, _⟩ := purge_es_deleted_spec nowSec ret db rows hrows hdb
    refine ⟨hdel, ?_⟩
    intro name
    rw [hdel, List.mem_filter]
  · decide

/-- Witness for C4 at a concrete listing and delete behaviour. -/
theorem C4_retention_witness :
    (∀ row ∈ [[("g"), ("o"), ("sflow-2020.01.01")], [("g"), ("o"), ("sflow-2024.06.14")]],
      2 < row.length) ∧
    (Pm2es.purge_old_indices (DateTime.toSec ⟨2024, 6, 15, 12, 0, 0⟩) 9
      (fun _ => ReqRes.status 200)
      [[("g"), ("o"), ("sflow-2020.01.01")], [("g"), ("o"), ("sflow-2024.06.14")]]).deleted =
      (([[("g"), ("o"), ("sflow-2020.01.01")],
         [("g"), ("o"), ("sflow-2024.06.14")]].map (fun r => r.getD 2 (""))).filter
        (shouldDelete (DateTime.toSec ⟨2024, 6, 15, 12, 0, 0⟩) 9)) := by
  refine ⟨by decide, ?_⟩
  exact (C4_retention.1 (DateTime.toSec ⟨2024, 6, 15, 12, 0, 0⟩) 9
    (fun _ => ReqRes.status 200)
    [[("g"), ("o"), ("sflow-2020.01.01")], [("g"), ("o"), ("sflow-2024.06.14")]]
    (by decide) (fun n => rfl)).1

/-! Claim C3. -/

/-- C3 (code-bug evidence): the `pm2os.py` sweep's delete branch evaluates
the undefined names `OPENSEARCH_HOST` / `OPENSEARCH_PORT`, so on the first
listed partition that qualifies for deletion Python raises `NameError`,
which neither handler catches: the sweep aborts with the remaining
partitions unprocessed and the process terminates — directly contradicting
the claim that one partition's deletion outcome never affects the rest and
never terminates the process.  The twin `pm2es.py` sweep (the evident
intent, using its own configured host) deletes both expired partitions
independently on the same input. -/
theorem C3_purge_crash :
    Pm2os.purge_old_indices (DateTime.toSec ⟨2024, 6, 15, 12, 0, 0⟩) RETENTION_DAYS
      [[("g"), ("o"), ("sflow-2020.01.01")], [("g"), ("o"), ("sflow-2020.01.02")]] =
      ⟨[], [], [], [], [[("g"), ("o"), ("sflow-2020.01.02")]], SweepEnd.crashed⟩ ∧
    (Pm2es.purge_old_indices (DateTime.toSec ⟨2024, 6, 15, 12, 0, 0⟩) RETENTION_DAYS
      (fun _ => ReqRes.status 200)
      [[("g"), ("o"), ("sflow-2020.01.01")], [("g"), ("o"), ("sflow-2020.01.02")]]).deleted =
      [("sflow-2020.01.01"), ("sflow-2020.01.02")] := by
  exact ⟨by decide, by decide⟩

/-! Helper lemmas: lexicographic order of partition names. -/

theorem decDigit_lt (a b : Nat) (h : a < b) (hb : b < 10) : decDigit a < decDigit b := by
  interval_cases b <;> interval_cases a <;> decide

theorem lex_append_left {r : Char → Char → Prop} (c : List Char) {l₁ l₂ : List Char}
    (h : List.Lex r l₁ l₂) : List.Lex r (c ++ l₁) (c ++ l₂) := by
  induction c with
  | nil => exact h
  | cons x xs ih => exact List.Lex.cons ih

theorem lex_append_both {r : Char → Char → Prop} :
    ∀ (a b : List Char), a.length = b.length → List.Lex r a b →
      ∀ (x y : List Char), List.Lex r (a ++ x) (b ++ y) := by
  intro a
  induction a with
  | nil =>
    intro b hlen h
    cases h with
    | nil => simp at hlen
  | cons p ps ih =>
    intro b hlen h x y
    cases b with
    | nil => simp at hlen
    | cons q qs =>
      cases h with
      | rel hr => exact List.Lex.rel hr
      | cons htail =>
        refine List.Lex.cons (ih qs ?_ htail x y)
        simpa using hlen

theorem padChars_lex_lt (w a b : Nat) (hab : a < b) (hb : b < 10 ^ w) :
    List.Lex (· < ·) (padChars w a) (padChars w b) := by
  induction w generalizing a b with
  | zero =>
    rw [pow_zero] at hb
    omega
  | succ w ih =>
    simp only [padChars]
    have hbd : b / 10 ^ w < 10 := by
      rw [Nat.div_lt_iff_lt_mul (Nat.pos_pow_of_pos w (by omega))]
      calc b < 10 ^ (w + 1) := hb
        _ = 10 * 10 ^ w := by ring
    have hdiv : a / 10 ^ w ≤ b / 10 ^ w := Nat.div_le_div_right (le_of_lt hab)
    rcases lt_or_eq_of_le hdiv with hlt | heq
    · exact List.Lex.rel (decDigit_lt _ _ hlt hbd)
    · rw [heq]
      refine List.Lex.cons (ih _ _ ?_ (Nat.mod_lt b (Nat.pos_pow_of_pos w (by omega))))
      have ha := Nat.div_add_mod a (10 ^ w)
      have hbm := Nat.div_add_mod b (10 ^ w)
      rw [heq] at ha
      omega

theorem dateChars_assoc (t : DateTime) :
    dateChars t = padChars 4 t.year ++
      (('.') :: (padChars 2 t.month ++ (('.') :: padChars 2 t.day))) := by
  unfold dateChars
  simp [List.append_assoc]

theorem dateChars_lex_lt (t1 t2 : DateTime) (h1 : t1.valid) (h2 : t2.valid)
    (hlt : dateLt (t1.year, t1.month, t1.day) (t2.year, t2.month, t2.day)) :
    List.Lex (· < ·) (dateChars t1) (dateChars t2) := by
  rcases h1 with ⟨⟨_, hy2a, _, hm2a, _, hd2a⟩, _⟩
  rcases h2 with ⟨⟨_, hy2b, _, hm2b, _, hd2b⟩, _⟩
  have hdma := daysInMonth_le_31 t1.year t1.month
  have hdmb := daysInMonth_le_31 t2.year t2.month
  rw [dateChars_assoc, dateChars_assoc]
  rcases hlt with hy | ⟨hy, hm | ⟨hm, hd⟩⟩
  · exact lex_append_both _ _ (by rw [padChars_length, padChars_length])
      (padChars_lex_lt 4 _ _ hy (by rw [pow10_4]; omega)) _ _
  · simp only at hy hm
    rw [hy]
    refine lex_append_left (padChars 4 t2.year) (List.Lex.cons ?_)
    exact lex_append_both _ _ (by rw [padChars_length, padChars_length])
      (padChars_lex_lt 2 _ _ hm (by rw [pow10_2]; omega)) _ _
  · simp only at hy hm hd
    rw [hy, hm]
    refine lex_append_left (padChars 4 t2.year) (List.Lex.cons ?_)
    refine lex_append_left (padChars 2 t2.month) (List.Lex.cons ?_)
    exact padChars_lex_lt 2 _ _ hd (by rw [pow10_2]; omega)

theorem INDEX_NAME_lt (t1 t2 : DateTime) (h1 : t1.valid) (h2 : t2.valid)
    (hlt : dateLt (t1.year, t1.month, t1.day) (t2.year, t2.month, t2.day)) :
    INDEX_NAME t1 < INDEX_NAME t2 := by
  rw [String.lt_iff_toList_lt]
  show List.Lex (· < ·) (INDEX_NAME t1).data (INDEX_NAME t2).data
  rw [INDEX_NAME_data, INDEX_NAME_data]
  exact lex_append_left (['s', 'f', 'l', 'o', 'w', '-'])
    (dateChars_lex_lt t1 t2 h1 h2 hlt)

theorem dateLt_nextDate (ymd : Nat × Nat × Nat) : dateLt ymd (nextDate ymd) := by
  rcases ymd with ⟨y, m, d⟩
  unfold nextDate dateLt
  dsimp only
  by_cases h1 : d < daysInMonth y m
  · rw [if_pos h1]
    exact Or.inr ⟨rfl, Or.inr ⟨rfl, Nat.lt_succ_self d⟩⟩
  · rw [if_neg h1]
    by_cases h2 : m < 12
    · rw [if_pos h2]
      exact Or.inr ⟨rfl, Or.inl (Nat.lt_succ_self m)⟩
    · rw [if_neg h2]
      exact Or.inl (Nat.lt_succ_self y)

theorem wellFormedName_INDEX_NAME (t : DateTime) (h : t.valid) :
    wellFormedName (INDEX_NAME t) = true := by
  rcases h with ⟨⟨hy1, hy2, hm1, hm2, hd1, hd2⟩, _⟩
  have hdm := daysInMonth_le_31 t.year t.month
  unfold wellFormedName
  rw [INDEX_NAME_data]
  unfold dateChars
  simp only [padChars, pow_succ, pow_zero, one_mul, List.cons_append, List.nil_append,
    List.append_assoc]
  norm_num
  refine ⟨?_, ?_, ?_, ?_, ?_, ?_, ?_, ?_⟩ <;> exact decDigit_isDigit _ (by omega)

/-! Claim C9. -/

/-- C9 (confirmed): for every valid UTC instant the partition namer
produces a name of the exact form `sflow-YYYY.MM.DD` with zero-padded
fields (`wellFormedName`); the names are strictly increasing — hence
monotonically non-decreasing — in lexicographic string order as the
calendar date advances; and advancing the instant by one whole day advances
the calendar date (`nextDate`, the Gregorian successor) to a
chronologically later date.  `INDEX_NAME` is a total Lean function of the
instant: the computation is pure with no failure modes. -/
theorem C9_partition_namer :
    (∀ t : DateTime, t.valid → wellFormedName (INDEX_NAME t) = true) ∧
    (∀ t1 t2 : DateTime, t1.valid → t2.valid →
      dateLt (t1.year, t1.month, t1.day) (t2.year, t2.month, t2.day) →
      INDEX_NAME t1 < INDEX_NAME t2) ∧
    (∀ ymd : Nat × Nat × Nat, dateLt ymd (nextDate ymd)) :=
  ⟨wellFormedName_INDEX_NAME, INDEX_NAME_lt, dateLt_nextDate⟩

/-- Witness for C9 at two concrete consecutive days. -/
theorem C9_partition_namer_witness :
    ((DateTime.valid ⟨2024, 6, 15, 12, 0, 0⟩) ∧ (DateTime.valid ⟨2024, 6, 16, 0, 0, 0⟩) ∧
     dateLt (2024, 6, 15) (2024, 6, 16)) ∧
    wellFormedName (INDEX_NAME ⟨2024, 6, 15, 12, 0, 0⟩) = true ∧
    INDEX_NAME ⟨2024, 6, 15, 12, 0, 0⟩ < INDEX_NAME ⟨2024, 6, 16, 0, 0, 0⟩ := by
  refine ⟨⟨by decide, by decide, by decide⟩, ?_, ?_⟩
  · exact C9_partition_namer.1 ⟨2024, 6, 15, 12, 0, 0⟩ (by decide)
  · exact C9_partition_namer.2.1 ⟨2024, 6, 15, 12, 0, 0⟩ ⟨2024, 6, 16, 0, 0, 0⟩
      (by decide) (by decide) (by decide)
